import Mathlib

set_option maxHeartbeats 1000000

/-!
Shallow embedding of the tasked planner core: the in-memory plan model and the
SQLite-backed persistence operations of planner/planner.go together with the
constraints of planner/schema.sql.  Go slices of strings are modelled as
Option (List String) so that a nil slice and an empty slice stay
distinguishable; machine state (the database) is passed explicitly; fallible
operations return Except.  The commit of a transaction is modelled by a
Boolean commitOk argument: the environment decides whether the final commit
succeeds, and every failure path rolls the transaction back, which in this
embedding means the original database value is kept.
-/

/-- In-memory step (struct Step in planner.go).  A Go nil slice is modelled as
none, a non-nil slice as some list. -/
structure Step where
  id : String
  description : String
  status : String
  acceptance : Option (List String)
  references : Option (List String)
  stepOrder : Nat
deriving DecidableEq

/-- In-memory plan (struct Plan in planner.go). -/
structure Plan where
  ID : String
  Steps : List Step
  isNew : Bool
deriving DecidableEq

/-- Row of the steps table (schema.sql). -/
structure StepRow where
  planId : String
  id : String
  description : String
  status : String
  stepOrder : Nat
deriving DecidableEq

/-- Row of the step_acceptance_criteria table (schema.sql). -/
structure CritRow where
  planId : String
  stepId : String
  criterionOrder : Nat
  criterion : String
deriving DecidableEq

/-- Row of the step_references table.  Modelled from the spec: the
step_references relation with columns (plan_id, step_id, order, text) is
declared in section 4.1 of the spec; the planner source holding it is not under
src, only its schema, tests and callers are. -/
structure RefRow where
  planId : String
  stepId : String
  referenceOrder : Nat
  reference : String
deriving DecidableEq

/-- The database state: the four relations. -/
structure DB where
  plans : List String
  steps : List StepRow
  criteria : List CritRow
  refs : List RefRow
deriving DecidableEq

/-- Classified errors of the planner operations.  The Go code returns error
values built from distinct message templates; each template is one constructor
here. -/
inductive PlanError where
  | invalidName : PlanError
  | planNotFound (name : String) : PlanError
  | alreadyExists (name : String) : PlanError
  | notFoundForUpdate (name : String) : PlanError
  | stepAlreadyExists (planId stepId : String) : PlanError
  | statusCheckViolation (planId stepId : String) : PlanError
  | commitFailed (planId : String) : PlanError
  | removeNotFound (name : String) : PlanError
  | removeCommitFailed : PlanError
  | removeCommitRevised : PlanError
deriving DecidableEq

deriving instance DecidableEq for Except

/-- Planner.Create (planner.go 259-272): pure in-memory construction, rejects
an empty name, returns an empty plan marked new. -/
def Planner.Create (name : String) : Except PlanError Plan :=
  if name = "" then .error .invalidName
  else .ok { ID := name, Steps := [], isNew := true }

/-- Plan.AddStep.  Modelled from the spec: the current four-argument AddStep
(with references) is not under src, only the older three-argument version and
the tests calling the new one are; per the spec, the new step has status TODO
and nil criteria and references normalize to empty sequences. -/
def Plan.AddStep (pl : Plan) (id description : String)
    (acceptanceCriteria references : Option (List String)) : Plan :=
  { pl with Steps := pl.Steps ++
      [{ id := id, description := description, status := "TODO",
         acceptance := some (acceptanceCriteria.getD []),
         references := some (references.getD []), stepOrder := 0 }] }

/-- Step.AcceptanceCriteria (planner.go 401-405): returns the field directly. -/
def Step.AcceptanceCriteria (st : Step) : Option (List String) := st.acceptance

/-- Step.References.  Modelled from the spec: the accessor exposes the
references sequence of the step; absence is an empty sequence, never a null
collection. -/
def Step.References (st : Step) : Option (List String) := st.references

/-- The Go map originalStepsMap in Plan.Reorder is built by iterating the steps
and overwriting, so lookup yields the last step carrying the given id. -/
def lastWithId (steps : List Step) (sid : String) : Option Step :=
  (steps.filter (fun st => st.id == sid)).getLast?

/-- First phase of Plan.Reorder (planner.go 495-506): place steps according to
newStepOrder, skipping unknown ids and ids already placed; returns the placed
prefix and the list of placed ids. -/
def placeByOrder (orig : List Step) : List String → List String → List Step × List String
  | [], placed => ([], placed)
  | sid :: rest, placed =>
    match lastWithId orig sid with
    | none => placeByOrder orig rest placed
    | some st =>
      if placed.contains sid then placeByOrder orig rest placed
      else
        let out := placeByOrder orig rest (sid :: placed)
        (st :: out.1, out.2)

/-- Second phase of Plan.Reorder (planner.go 508-516): append the original
steps whose ids were not placed, in their original relative order, marking each
appended id as placed. -/
def appendRemaining : List Step → List String → List Step
  | [], _ => []
  | st :: rest, placed =>
    if placed.contains st.id then appendRemaining rest placed
    else st :: appendRemaining rest (st.id :: placed)

/-- Plan.Reorder (planner.go 474-519). -/
def Plan.Reorder (pl : Plan) (newStepOrder : List String) : Plan :=
  if pl.Steps.isEmpty then pl
  else
    let out := placeByOrder pl.Steps newStepOrder []
    { pl with Steps := out.1 ++ appendRemaining pl.Steps out.2 }

/-- SELECT of the step rows of one plan. -/
def stepRowsFor (db : DB) (planId : String) : List StepRow :=
  db.steps.filter (fun r => r.planId == planId)

/-- SELECT id FROM steps WHERE plan_id = ? (the dbStepIDs set of Save). -/
def dbStepIDsOf (db : DB) (planId : String) : List String :=
  (stepRowsFor db planId).map (fun r => r.id)

/-- SELECT of the criteria rows of one step. -/
def critRowsFor (db : DB) (planId stepId : String) : List CritRow :=
  db.criteria.filter (fun r => r.planId == planId && r.stepId == stepId)

/-- SELECT of the reference rows of one step. -/
def refRowsFor (db : DB) (planId stepId : String) : List RefRow :=
  db.refs.filter (fun r => r.planId == planId && r.stepId == stepId)

/-- DELETE FROM step_acceptance_criteria WHERE plan_id = ? AND step_id = ? -/
def deleteCriteriaFor (db : DB) (planId stepId : String) : DB :=
  { db with criteria := db.criteria.filter (fun r => !(r.planId == planId && r.stepId == stepId)) }

/-- DELETE FROM step_references WHERE plan_id = ? AND step_id = ? -/
def deleteRefsFor (db : DB) (planId stepId : String) : DB :=
  { db with refs := db.refs.filter (fun r => !(r.planId == planId && r.stepId == stepId)) }

/-- DELETE FROM steps WHERE plan_id = ? AND id = ? -/
def deleteStepRow (db : DB) (planId stepId : String) : DB :=
  { db with steps := db.steps.filter (fun r => !(r.planId == planId && r.id == stepId)) }

/-- The CHECK(status IN (TODO, DONE)) constraint of the steps table in
schema.sql. -/
def validStatus (s : String) : Bool := s == "TODO" || s == "DONE"

/-- INSERT INTO steps: fails on the composite primary key (plan_id, id) or on
the status CHECK constraint. -/
def insertStepRow (db : DB) (row : StepRow) : Except PlanError DB :=
  if db.steps.any (fun r => r.planId == row.planId && r.id == row.id) then
    .error (.stepAlreadyExists row.planId row.id)
  else if !validStatus row.status then
    .error (.statusCheckViolation row.planId row.id)
  else .ok { db with steps := db.steps ++ [row] }

/-- UPDATE steps SET description, status, step_order WHERE plan_id = ? AND
id = ?.  The CHECK constraint fires only when a row is actually updated. -/
def updateStepRow (db : DB) (planId stepId description status : String) (ord : Nat) :
    Except PlanError DB :=
  if !validStatus status && db.steps.any (fun r => r.planId == planId && r.id == stepId) then
    .error (.statusCheckViolation planId stepId)
  else .ok { db with steps := db.steps.map (fun r =>
    if r.planId == planId && r.id == stepId then
      { r with description := description, status := status, stepOrder := ord }
    else r) }

/-- The criteria insert loop of Save (for j, acText := range step.acceptance).
The composite primary key cannot collide here because the criteria of this
step were deleted immediately before, so each insert is an append. -/
def insertCriteriaList (planId stepId : String) : Nat → List String → DB → DB
  | _, [], db => db
  | j, c :: rest, db =>
    insertCriteriaList planId stepId (j+1) rest
      { db with criteria := db.criteria ++
          [{ planId := planId, stepId := stepId, criterionOrder := j, criterion := c }] }

/-- The references insert loop of Save.  Modelled from the spec: step 8 of the
Save contract replaces the full references list wholesale, in current in-memory
order. -/
def insertRefsList (planId stepId : String) : Nat → List String → DB → DB
  | _, [], db => db
  | j, c :: rest, db =>
    insertRefsList planId stepId (j+1) rest
      { db with refs := db.refs ++
          [{ planId := planId, stepId := stepId, referenceOrder := j, reference := c }] }

/-- Deletion of stored steps absent from the in-memory plan (planner.go
630-641): criteria first, then the step row; the references of the stale step
are deleted likewise (modelled from the spec, step 6 of the Save contract). -/
def deleteStaleSteps (planId : String) (stale : List String) (db : DB) : DB :=
  stale.foldl (fun db sid =>
    deleteStepRow (deleteRefsFor (deleteCriteriaFor db planId sid) planId sid) planId sid) db

/-- The per-step synchronization loop of Save (planner.go 643-671): update the
step row when its id was stored, insert it otherwise, always assigning order =
current position; then wholesale replace its criteria; the references are
replaced likewise (modelled from the spec, step 8 of the Save contract). -/
def saveStepsLoop (planId : String) (dbStepIDs : List String) :
    Nat → List Step → DB → Except PlanError DB
  | _, [], db => .ok db
  | i, st :: rest, db => do
    let db ← if dbStepIDs.contains st.id then
        updateStepRow db planId st.id st.description st.status i
      else
        insertStepRow db { planId := planId, id := st.id, description := st.description,
                           status := st.status, stepOrder := i }
    let db := deleteCriteriaFor db planId st.id
    let db := insertCriteriaList planId st.id 0 (st.acceptance.getD []) db
    let db := deleteRefsFor db planId st.id
    let db := insertRefsList planId st.id 0 (st.references.getD []) db
    saveStepsLoop planId dbStepIDs (i+1) rest db

/-- The in-memory mutation step.stepOrder = i performed by the save loop. -/
def setOrders : Nat → List Step → List Step
  | _, [] => []
  | i, st :: rest => { st with stepOrder := i } :: setOrders (i+1) rest

/-- Planner.Save (planner.go 570-684).  A unique violation on the plans insert
is surfaced as the distinct alreadyExists error; an update intent against a
missing plan row is the distinct notFoundForUpdate error.  commitOk models the
final transaction commit; on any failure the transaction rolls back and no
database value is produced.  Only on success is the returned plan marked not
new. -/
def Planner.Save (db : DB) (plan : Plan) (commitOk : Bool) : Except PlanError (DB × Plan) := do
  let db₁ ←
    if plan.isNew then
      if db.plans.contains plan.ID then .error (.alreadyExists plan.ID)
      else .ok { db with plans := db.plans ++ [plan.ID] }
    else
      if db.plans.contains plan.ID then .ok db
      else .error (.notFoundForUpdate plan.ID)
  let dbStepIDs := dbStepIDsOf db₁ plan.ID
  let planStepIDs := plan.Steps.map (fun st => st.id)
  let stale := dbStepIDs.filter (fun sid => !planStepIDs.contains sid)
  let db₂ := deleteStaleSteps plan.ID stale db₁
  let db₃ ← saveStepsLoop plan.ID dbStepIDs 0 plan.Steps db₂
  if commitOk then
    .ok (db₃, { plan with Steps := setOrders 0 plan.Steps, isNew := false })
  else .error (.commitFailed plan.ID)

/-- The caller-observable effect of Save: the database and the in-memory plan
after the call.  On failure the transaction is rolled back and the in-memory
plan, in particular its isNew flag, is untouched. -/
def runSave (db : DB) (plan : Plan) (commitOk : Bool) : DB × Plan × Option PlanError :=
  match Planner.Save db plan commitOk with
  | .ok (db2, p2) => (db2, p2, none)
  | .error e => (db, plan, some e)

/-- ORDER BY on an integer column: insertion of one element into a sorted
list. -/
def insertByKey (key : α → Nat) (a : α) : List α → List α
  | [] => [a]
  | b :: l => if key a ≤ key b then a :: b :: l else b :: insertByKey key a l

/-- ORDER BY on an integer column: insertion sort by the key. -/
def orderBy (key : α → Nat) : List α → List α
  | [] => []
  | a :: l => insertByKey key a (orderBy key l)

/-- Planner.Get (planner.go 274-341): fails when no plan row matches, loads the
steps ordered by step_order ascending and the criteria of each step ordered by
criterion_order ascending; the references of each step are loaded likewise,
ordered by their stored order (modelled from the spec, Get contract).  Loaded
collections are initialized non-nil. -/
def Planner.Get (db : DB) (name : String) : Except PlanError Plan :=
  if db.plans.contains name then
    .ok { ID := name, isNew := false,
          Steps := (orderBy (fun r => r.stepOrder) (stepRowsFor db name)).map (fun r =>
            { id := r.id, description := r.description, status := r.status,
              stepOrder := r.stepOrder,
              acceptance := some ((orderBy (fun c => c.criterionOrder)
                (critRowsFor db name r.id)).map (fun c => c.criterion)),
              references := some ((orderBy (fun c => c.referenceOrder)
                (refRowsFor db name r.id)).map (fun c => c.reference)) }) }
  else .error (.planNotFound name)

/-- DELETE FROM plans WHERE id = ?, with ON DELETE CASCADE removing the steps
of the plan and, through them, their criteria and references. -/
def deletePlanCascade (db : DB) (name : String) : DB :=
  { plans := db.plans.filter (fun p => !(p == name)),
    steps := db.steps.filter (fun r => !(r.planId == name)),
    criteria := db.criteria.filter (fun r => !(r.planId == name)),
    refs := db.refs.filter (fun r => !(r.planId == name)) }

/-- Read of the per-name outcome map. -/
def lookupRes (results : List (String × Option PlanError)) (k : String) :
    Option (Option PlanError) :=
  (results.find? (fun e => e.1 == k)).map (fun e => e.2)

/-- Write of the per-name outcome map: update the entry in place or append a
new one. -/
def mapUpdate (results : List (String × Option PlanError)) (k : String)
    (v : Option PlanError) : List (String × Option PlanError) :=
  if results.any (fun e => e.1 == k) then
    results.map (fun e => if e.1 == k then (k, v) else e)
  else results ++ [(k, v)]

/-- The per-name delete loop of Remove (planner.go 708-721): a delete touching
no row reports a per-name not-found error, a delete touching the row reports
success; the remaining names are still attempted either way. -/
def removeLoop : List String → DB → List (String × Option PlanError) →
    DB × List (String × Option PlanError)
  | [], txdb, results => (txdb, results)
  | name :: rest, txdb, results =>
    if txdb.plans.contains name then
      removeLoop rest (deletePlanCascade txdb name) (mapUpdate results name none)
    else
      removeLoop rest txdb (mapUpdate results name (some (.removeNotFound name)))

/-- Planner.Remove (planner.go 686-747).  When any per-name error occurred the
transaction is rolled back (the input database is returned) and the outcome map
is returned exactly as accumulated.  When no per-name error occurred the commit
is attempted: on commit failure the transaction key gets the commit error and
every success entry is revised to a commit-failure error. -/
def Planner.Remove (db : DB) (planNames : List String) (commitOk : Bool) :
    DB × List (String × Option PlanError) :=
  let out := removeLoop planNames db []
  let hasErrors := out.2.any (fun e => e.2.isSome)
  if !hasErrors then
    if commitOk then out
    else
      let revised := (mapUpdate out.2 "_" (some .removeCommitFailed)).map (fun e =>
        if e.2.isNone then (e.1, some .removeCommitRevised) else e)
      (db, revised)
  else (db, out.2)

/-- The compaction candidate query of Compact (planner.go 752-758): plans
having zero steps or exactly as many DONE steps as steps. -/
def compactCandidates (db : DB) : List String :=
  db.plans.filter (fun p =>
    let ss := stepRowsFor db p
    ss.length == 0 || ss.countP (fun s => s.status == "DONE") == ss.length)

/-- The first error wrapped by Compact: a transaction-level error is kept as
is, a per-plan error is wrapped with the plan name. -/
inductive CompactFirst where
  | txLevel (e : PlanError) : CompactFirst
  | perPlan (name : String) (e : PlanError) : CompactFirst
deriving DecidableEq

/-- The aggregate Compact error: how many errors occurred and the first
encountered error. -/
structure CompactError where
  errorCount : Nat
  firstError : CompactFirst
deriving DecidableEq

/-- The error-aggregation loop of Compact (planner.go 787-803). -/
def compactFold (results : List (String × Option PlanError)) : Nat × Option CompactFirst :=
  results.foldl (fun acc e =>
    match e.2 with
    | none => acc
    | some err =>
      (acc.1 + 1,
       match acc.2 with
       | some f => some f
       | none => some (if e.1 == "_" then .txLevel err else .perPlan e.1 err))) (0, none)

/-- Planner.Compact (planner.go 749-812): find the candidates, return success
untouched when there are none, otherwise delegate deletion to Remove and
aggregate its outcome map into at most one error. -/
def Planner.Compact (db : DB) (commitOk : Bool) : DB × Option CompactError :=
  let cands := compactCandidates db
  if cands.isEmpty then (db, none)
  else
    let out := Planner.Remove db cands commitOk
    match compactFold out.2 with
    | (_, none) => (out.1, none)
    | (k, some f) => (out.1, some { errorCount := k, firstError := f })

/-- Well-formed database: the plans primary key and the steps composite
primary key hold.  Every database reachable from an empty one satisfies
this. -/
def WF (db : DB) : Prop :=
  db.plans.Nodup ∧ (db.steps.map (fun r => (r.planId, r.id))).Nodup

/-! ### Shape lemmas about Save -/

/-- A successful Save always ends in a successful commit, and the returned
in-memory plan is the input plan with assigned step orders and isNew
cleared. -/
theorem save_ok_shape {db : DB} {p : Plan} {c : Bool} {db2 : DB} {p2 : Plan}
    (h : Planner.Save db p c = .ok (db2, p2)) :
    c = true ∧ p2 = { p with Steps := setOrders 0 p.Steps, isNew := false } := by
  unfold Planner.Save at h
  simp only [bind, Except.bind] at h
  split at h
  · split at h
    · cases h
    · split at h
      · cases h
      · split at h <;> simp_all
  · split at h
    · split at h
      · cases h
      · split at h <;> simp_all
    · cases h

/-- A failed Save leaves both the database and the in-memory plan untouched:
the transaction rolls back. -/
theorem runSave_error {db : DB} {p : Plan} {c : Bool} {e : PlanError}
    (h : Planner.Save db p c = .error e) : runSave db p c = (db, p, some e) := by
  unfold runSave
  rw [h]

/-- C6: the in-memory isNew flag flips to false only after the transaction
commits successfully; any failed Save, in particular a failed commit, leaves
the plan (and so its isNew flag) unchanged, and a Save whose commit fails never
succeeds, so a retried Save of a new plan still attempts insert semantics. -/
theorem save_isNew_flips_only_on_commit (db : DB) (p : Plan) :
    (∀ c db2 p2, Planner.Save db p c = .ok (db2, p2) → c = true ∧ p2.isNew = false) ∧
    (∀ c e, Planner.Save db p c = .error e →
      runSave db p c = (db, p, some e) ∧ (runSave db p c).2.1.isNew = p.isNew) ∧
    (∀ out, Planner.Save db p false ≠ .ok out) := by
  refine ⟨fun c db2 p2 h => ?_, fun c e h => ?_, fun out h => ?_⟩
  · obtain ⟨hc, hp⟩ := save_ok_shape h
    exact ⟨hc, by rw [hp]⟩
  · rw [runSave_error h]
    exact ⟨rfl, rfl⟩
  · obtain ⟨hc, _⟩ := save_ok_shape
      (show Planner.Save db p false = .ok (out.1, out.2) from by simpa using h)
    cases hc

/-- Witness for C6 at a concrete input: a commit failure on a fresh plan fails
the save and leaves the plan flagged new. -/
theorem save_isNew_flips_only_on_commit_witness :
    runSave ⟨[], [], [], []⟩ ⟨"p", [], true⟩ false =
      (⟨[], [], [], []⟩, ⟨"p", [], true⟩, some (.commitFailed "p")) ∧
    (runSave ⟨[], [], [], []⟩ ⟨"p", [], true⟩ false).2.1.isNew = true := by
  have h := (save_isNew_flips_only_on_commit ⟨[], [], [], []⟩ ⟨"p", [], true⟩).2.1
    false (.commitFailed "p") (by decide)
  exact ⟨h.1, by rw [h.1]⟩

/-- C3: a create-intent Save (isNew = true) whose id already has a plan row
fails with the distinct alreadyExists error, the database is unchanged, and no
duplicate plan row exists afterwards. -/
theorem save_createIntent_alreadyExists (db : DB) (p : Plan) (c : Bool)
    (h1 : p.isNew = true) (h2 : db.plans.contains p.ID = true) (hwf : WF db) :
    runSave db p c = (db, p, some (.alreadyExists p.ID)) ∧
    (runSave db p c).1.plans.count p.ID = 1 := by
  have herr : Planner.Save db p c = .error (.alreadyExists p.ID) := by
    unfold Planner.Save
    simp only [bind, Except.bind, h1, h2]
    rfl
  refine ⟨runSave_error herr, ?_⟩
  rw [runSave_error herr]
  have hmem : p.ID ∈ db.plans := by
    simpa using h2
  exact List.count_eq_one_of_mem hwf.1 hmem

/-- Witness for C3: Create "p", Save, then a second fresh create-intent Save of
the same id fails with alreadyExists and exactly one plan row named p exists. -/
theorem save_createIntent_alreadyExists_witness :
    runSave (runSave ⟨[], [], [], []⟩ ⟨"p", [], true⟩ true).1 ⟨"p", [], true⟩ true =
      ((runSave ⟨[], [], [], []⟩ ⟨"p", [], true⟩ true).1, ⟨"p", [], true⟩,
        some (.alreadyExists "p")) ∧
    (runSave (runSave ⟨[], [], [], []⟩ ⟨"p", [], true⟩ true).1 ⟨"p", [], true⟩ true).1.plans.count "p" = 1 :=
  save_createIntent_alreadyExists (runSave ⟨[], [], [], []⟩ ⟨"p", [], true⟩ true).1
    ⟨"p", [], true⟩ true rfl (by decide) ⟨by decide, by decide⟩

/-- C4: an update-intent Save (isNew = false) against an id absent from
storage fails with the distinct notFoundForUpdate error and writes no rows at
all: the database after the call is exactly the database before it. -/
theorem save_updateIntent_notFound (db : DB) (p : Plan) (c : Bool)
    (h1 : p.isNew = false) (h2 : db.plans.contains p.ID = false) :
    runSave db p c = (db, p, some (.notFoundForUpdate p.ID)) := by
  have herr : Planner.Save db p c = .error (.notFoundForUpdate p.ID) := by
    unfold Planner.Save
    simp only [bind, Except.bind, h1, h2]
    rfl
  exact runSave_error herr

/-- Witness for C4: an update-intent plan object against an empty database. -/
theorem save_updateIntent_notFound_witness :
    runSave ⟨[], [], [], []⟩ ⟨"p", [], false⟩ true =
      (⟨[], [], [], []⟩, ⟨"p", [], false⟩, some (.notFoundForUpdate "p")) :=
  save_updateIntent_notFound ⟨[], [], [], []⟩ ⟨"p", [], false⟩ true rfl (by decide)

/-- C7: a step created by AddStep with nil criteria and nil references exposes
empty ordered sequences through both accessors, never a null collection; in
general the accessors of the new step return exactly the given sequences with
nil normalized to empty. -/
theorem addStep_accessors_never_nil (pl : Plan) (id description : String)
    (cr rf : Option (List String)) :
    ∃ st : Step,
      (pl.AddStep id description cr rf).Steps = pl.Steps ++ [st] ∧
      st.AcceptanceCriteria = some (cr.getD []) ∧
      st.References = some (rf.getD []) ∧
      st.AcceptanceCriteria ≠ none ∧ st.References ≠ none ∧
      st.status = "TODO" := by
  refine ⟨_, rfl, rfl, rfl, ?_, ?_, rfl⟩ <;> simp [Step.AcceptanceCriteria, Step.References]

/-! ### Concrete scenarios used by counterexamples -/

/-- A database holding one plan named a and nothing else. -/
def dbOnlyA : DB := { plans := ["a"], steps := [], criteria := [], refs := [] }

/-- C1 counterexample: removing an existing plan a together with a missing
plan b rolls the transaction back (the plans table still holds a, nothing was
durably deleted), yet the outcome map still reports a as a success (nil
error).  The claim that no entry claims success when the transaction does not
commit is therefore false on the code. -/
theorem remove_success_entry_survives_rollback :
    (Planner.Remove dbOnlyA ["a", "b"] true).2 =
      [("a", none), ("b", some (.removeNotFound "b"))] ∧
    (Planner.Remove dbOnlyA ["a", "b"] true).1 = dbOnlyA := by decide

/-- A stored plan p with a single step x, used to exhibit the duplicate-id
save anomaly. -/
def dbPX : DB :=
  { plans := ["p"],
    steps := [{ planId := "p", id := "x", description := "d", status := "TODO", stepOrder := 0 }],
    criteria := [], refs := [] }

/-- An update-intent plan whose in-memory step list holds two steps sharing
the id x, as AddStep permits. -/
def planDupX : Plan :=
  { ID := "p",
    Steps :=
      [{ id := "x", description := "d1", status := "TODO", acceptance := none,
         references := none, stepOrder := 0 },
       { id := "x", description := "d2", status := "TODO", acceptance := none,
         references := none, stepOrder := 0 }],
    isNew := false }

/-- C2 counterexample: saving a plan whose in-memory list duplicates a stored
step id succeeds, but Get afterwards returns a single step where the saved
in-memory sequence had two, so Save-then-Get does not return an equal step
sequence for every plan. -/
theorem roundtrip_fails_on_duplicate_ids :
    (runSave dbPX planDupX true).2.2 = none ∧
    ((Planner.Get (runSave dbPX planDupX true).1 "p").toOption.map
      (fun q => q.Steps.map (fun s => s.id))) = some ["x"] ∧
    planDupX.Steps.map (fun s => s.id) = ["x", "x"] := by decide

/-- C8 counterexample: the same successful save stores a single row for plan p
whose order column is 1 while the in-memory sequence has two steps, so the
stored order values are neither the 0-based positions nor the dense range
0..N-1. -/
theorem saved_orders_not_dense_on_duplicate_ids :
    (runSave dbPX planDupX true).2.2 = none ∧
    (stepRowsFor (runSave dbPX planDupX true).1 "p").map (fun r => (r.id, r.stepOrder)) =
      [("x", 1)] ∧
    planDupX.Steps.length = 2 := by decide

/-! ### Reorder: specification comparison and characterization -/

/-- First occurrences, avoiding an accumulator of already seen elements. -/
def firstOccurrencesGo : List String → List String → List String
  | [], _ => []
  | x :: rest, seen =>
    if seen.contains x then firstOccurrencesGo rest seen
    else x :: firstOccurrencesGo rest (x :: seen)

/-- First occurrences of the elements of a list, in order: duplicates after
the first are dropped. -/
def firstOccurrences (l : List String) : List String := firstOccurrencesGo l []

/-- Modelled from the spec (the refinement comparison for Reorder): steps
whose ids appear in newOrder are moved to the front in the given sequence,
first occurrence wins, ids not present in the plan are ignored, and the steps
not mentioned are appended afterward in their prior relative order. -/
def ReorderSpec (steps : List Step) (newOrder : List String) : List Step :=
  let eff := firstOccurrences (newOrder.filter (fun sid => steps.any (fun st => st.id == sid)))
  eff.filterMap (fun sid => steps.find? (fun st => st.id == sid)) ++
    steps.filter (fun st => !(eff.contains st.id))

/-- The ids actually placed by the first phase of Reorder, in placement
order. -/
def effIds (orig : List Step) : List String → List String → List String
  | [], _ => []
  | sid :: rest, placed =>
    match lastWithId orig sid with
    | none => effIds orig rest placed
    | some _ =>
      if placed.contains sid then effIds orig rest placed
      else sid :: effIds orig rest (sid :: placed)

theorem lastWithId_eq_none_iff (orig : List Step) (sid : String) :
    lastWithId orig sid = none ↔ orig.any (fun st => st.id == sid) = false := by
  unfold lastWithId
  rw [List.getLast?_eq_none_iff, List.filter_eq_nil_iff]
  simp

theorem lastWithId_mem {orig : List Step} {sid : String} {st : Step}
    (h : lastWithId orig sid = some st) : st ∈ orig ∧ st.id = sid := by
  unfold lastWithId at h
  have hm := List.mem_of_mem_getLast? h
  have := List.mem_filter.1 hm
  simpa using this

theorem lastWithId_eq_find? {orig : List Step} (hnd : (orig.map (fun st => st.id)).Nodup)
    (sid : String) : lastWithId orig sid = orig.find? (fun st => st.id == sid) := by
  induction orig with
  | nil => rfl
  | cons st rest ih =>
    simp only [List.map_cons, List.nodup_cons] at hnd
    unfold lastWithId
    by_cases h : st.id = sid
    · have hrest : rest.filter (fun x => x.id == sid) = [] := by
        rw [List.filter_eq_nil_iff]
        intro x hx
        have hxne : x.id ≠ sid := by
          intro hxid
          apply hnd.1
          rw [h, ← hxid]
          exact List.mem_map_of_mem _ hx
        simp [hxne]
      have hbeq : (st.id == sid) = true := by simpa using h
      rw [List.filter_cons, if_pos hbeq, hrest,
        List.find?_cons_of_pos (p := fun y => y.id == sid) rest hbeq]
      rfl
    · have hbeq : (st.id == sid) = false := by simpa using h
      rw [List.filter_cons, if_neg (by simp [hbeq]),
        List.find?_cons_of_neg (p := fun y => y.id == sid) rest (by simp [hbeq])]
      exact ih hnd.2

theorem placeByOrder_fst (orig : List Step) :
    ∀ (order placed : List String),
      (placeByOrder orig order placed).1 =
        (effIds orig order placed).filterMap (fun sid => lastWithId orig sid) := by
  intro order
  induction order with
  | nil => intro placed; rfl
  | cons sid rest ih =>
    intro placed
    cases hlw : lastWithId orig sid with
    | none => simp [placeByOrder, effIds, hlw, ih placed]
    | some st =>
      cases hp : placed.contains sid with
      | true =>
        have hp2 : sid ∈ placed := by simpa using hp
        simp [placeByOrder, effIds, hlw, hp2, ih placed]
      | false =>
        have hp2 : sid ∉ placed := by simpa using hp
        simp [placeByOrder, effIds, hlw, hp2, ih (sid :: placed)]

theorem placeByOrder_snd_mem (orig : List Step) :
    ∀ (order placed : List String) (x : String),
      x ∈ (placeByOrder orig order placed).2 ↔
        x ∈ effIds orig order placed ∨ x ∈ placed := by
  intro order
  induction order with
  | nil => intro placed x; simp [placeByOrder, effIds]
  | cons sid rest ih =>
    intro placed x
    cases hlw : lastWithId orig sid with
    | none => simp [placeByOrder, effIds, hlw, ih placed]
    | some st =>
      cases hp : placed.contains sid with
      | true =>
        have hp2 : sid ∈ placed := by simpa using hp
        simp [placeByOrder, effIds, hlw, hp2, ih placed]
      | false =>
        have hc : ¬ (placed.contains sid = true) := by intro hcc; rw [hp] at hcc; cases hcc
        simp only [placeByOrder, effIds, hlw]
        rw [if_neg hc, if_neg hc]
        show x ∈ (placeByOrder orig rest (sid :: placed)).2 ↔ _
        rw [ih (sid :: placed) x]
        simp only [List.mem_cons]
        tauto

theorem effIds_not_placed (orig : List Step) :
    ∀ (order placed : List String) (x : String),
      x ∈ effIds orig order placed → x ∉ placed := by
  intro order
  induction order with
  | nil => intro placed x h; cases h
  | cons sid rest ih =>
    intro placed x h
    cases hlw : lastWithId orig sid with
    | none =>
      simp only [effIds, hlw] at h
      exact ih placed x h
    | some st =>
      cases hp : placed.contains sid with
      | true =>
        simp only [effIds, hlw] at h
        rw [if_pos hp] at h
        exact ih placed x h
      | false =>
        have hp2 : sid ∉ placed := by simpa using hp
        have hc : ¬ (placed.contains sid = true) := by intro hcc; rw [hp] at hcc; cases hcc
        simp only [effIds, hlw] at h
        rw [if_neg hc] at h
        rcases List.mem_cons.1 h with rfl | h2
        · exact hp2
        · have hnp := ih (sid :: placed) x h2
          intro hx
          exact hnp (List.mem_cons_of_mem _ hx)

theorem lastWithId_some_any {orig : List Step} {sid : String} {st : Step}
    (h : lastWithId orig sid = some st) :
    orig.any (fun x => x.id == sid) = true := by
  by_contra hc
  have := (lastWithId_eq_none_iff orig sid).2 (by
    cases hany : orig.any (fun x => x.id == sid) with
    | true => exact absurd hany hc
    | false => rfl)
  rw [this] at h
  cases h

theorem effIds_nodup (orig : List Step) :
    ∀ (order placed : List String), (effIds orig order placed).Nodup := by
  intro order
  induction order with
  | nil => intro placed; exact List.nodup_nil
  | cons sid rest ih =>
    intro placed
    cases hlw : lastWithId orig sid with
    | none => simp only [effIds, hlw]; exact ih placed
    | some st =>
      cases hp : placed.contains sid with
      | true =>
        simp only [effIds, hlw]
        rw [if_pos hp]
        exact ih placed
      | false =>
        have hc : ¬ (placed.contains sid = true) := by intro hcc; rw [hp] at hcc; cases hcc
        simp only [effIds, hlw]
        rw [if_neg hc]
        refine List.nodup_cons.2 ⟨?_, ih (sid :: placed)⟩
        intro hmem
        exact effIds_not_placed orig rest (sid :: placed) sid hmem (List.mem_cons_self sid placed)

theorem effIds_mem (orig : List Step) :
    ∀ (order placed : List String) (x : String),
      x ∈ effIds orig order placed ↔
        x ∈ order ∧ orig.any (fun st => st.id == x) = true ∧ x ∉ placed := by
  intro order
  induction order with
  | nil => intro placed x; simp [effIds]
  | cons sid rest ih =>
    intro placed x
    cases hlw : lastWithId orig sid with
    | none =>
      have hany := (lastWithId_eq_none_iff orig sid).1 hlw
      simp only [effIds, hlw, List.mem_cons]
      rw [ih placed x]
      constructor
      · rintro ⟨h1, h2, h3⟩
        exact ⟨Or.inr h1, h2, h3⟩
      · rintro ⟨h1 | h1, h2, h3⟩
        · rw [h1] at h2
          rw [h2] at hany
          cases hany
        · exact ⟨h1, h2, h3⟩
    | some st =>
      have hany := lastWithId_some_any hlw
      cases hp : placed.contains sid with
      | true =>
        have hp2 : sid ∈ placed := by simpa using hp
        simp only [effIds, hlw]
        rw [if_pos hp]
        rw [ih placed x]
        simp only [List.mem_cons]
        constructor
        · rintro ⟨h1, h2, h3⟩
          exact ⟨Or.inr h1, h2, h3⟩
        · rintro ⟨h1 | h1, h2, h3⟩
          · rw [h1] at h3
            exact absurd hp2 h3
          · exact ⟨h1, h2, h3⟩
      | false =>
        have hp2 : sid ∉ placed := by simpa using hp
        have hc : ¬ (placed.contains sid = true) := by intro hcc; rw [hp] at hcc; cases hcc
        simp only [effIds, hlw]
        rw [if_neg hc]
        simp only [List.mem_cons]
        rw [ih (sid :: placed) x]
        simp only [List.mem_cons]
        constructor
        · rintro (rfl | ⟨h1, h2, h3⟩)
          · exact ⟨Or.inl rfl, hany, hp2⟩
          · exact ⟨Or.inr h1, h2, fun hx => h3 (Or.inr hx)⟩
        · rintro ⟨h1 | h1, h2, h3⟩
          · exact Or.inl h1
          · by_cases hxs : x = sid
            · exact Or.inl hxs
            · refine Or.inr ⟨h1, h2, ?_⟩
              intro hx
              rcases hx with hx | hx
              · exact hxs hx
              · exact h3 hx

theorem effIds_eq_firstOccurrencesGo (orig : List Step) :
    ∀ (order placed : List String),
      effIds orig order placed =
        firstOccurrencesGo (order.filter (fun sid => orig.any (fun st => st.id == sid))) placed := by
  intro order
  induction order with
  | nil => intro placed; rfl
  | cons sid rest ih =>
    intro placed
    cases hlw : lastWithId orig sid with
    | none =>
      have hany := (lastWithId_eq_none_iff orig sid).1 hlw
      simp only [effIds, hlw, List.filter_cons, hany]
      exact ih placed
    | some st =>
      have hany := lastWithId_some_any hlw
      simp only [effIds, hlw, List.filter_cons, hany, if_pos rfl, firstOccurrencesGo]
      cases hp : placed.contains sid with
      | true =>
        rw [if_pos rfl, if_pos rfl]
        exact ih placed
      | false =>
        rw [if_neg (by simp), if_neg (by simp), ih (sid :: placed)]

theorem appendRemaining_eq_filter {steps : List Step}
    (hnd : (steps.map (fun st => st.id)).Nodup) :
    ∀ placed : List String,
      appendRemaining steps placed = steps.filter (fun st => !(placed.contains st.id)) := by
  induction steps with
  | nil => intro placed; rfl
  | cons st rest ih =>
    intro placed
    simp only [List.map_cons, List.nodup_cons] at hnd
    cases hc : placed.contains st.id with
    | true =>
      simp only [appendRemaining, List.filter_cons]
      rw [if_pos hc, hc]
      simpa using ih hnd.2 placed
    | false =>
      simp only [appendRemaining, List.filter_cons]
      rw [if_neg (by rw [hc]; simp), hc]
      simp only [Bool.not_false, if_pos rfl]
      rw [ih hnd.2 (st.id :: placed)]
      apply congrArg
      apply List.filter_congr
      intro x hx
      have hxne : x.id ≠ st.id := by
        intro hxid
        exact hnd.1 (hxid ▸ List.mem_map_of_mem _ hx)
      have hiff : ((st.id :: placed).contains x.id = true) ↔ (placed.contains x.id = true) := by
        simp [hxne]
      cases h1 : (st.id :: placed).contains x.id <;> cases h2 : placed.contains x.id <;> simp_all

theorem appendRemaining_subset :
    ∀ (steps : List Step) (placed : List String) (st : Step),
      st ∈ appendRemaining steps placed → st ∈ steps := by
  intro steps
  induction steps with
  | nil => intro placed st h; cases h
  | cons hd rest ih =>
    intro placed st h
    cases hc : placed.contains hd.id with
    | true =>
      simp only [appendRemaining] at h
      rw [if_pos (by rw [hc])] at h
      exact List.mem_cons_of_mem _ (ih placed st h)
    | false =>
      simp only [appendRemaining] at h
      rw [if_neg (by rw [hc]; simp)] at h
      rcases List.mem_cons.1 h with rfl | h2
      · exact List.mem_cons_self _ _
      · exact List.mem_cons_of_mem _ (ih (hd.id :: placed) st h2)

theorem appendRemaining_ids_mem :
    ∀ (steps : List Step) (placed : List String) (sid : String),
      sid ∈ (appendRemaining steps placed).map (fun st => st.id) ↔
        sid ∈ steps.map (fun st => st.id) ∧ sid ∉ placed := by
  intro steps
  induction steps with
  | nil => intro placed sid; simp [appendRemaining]
  | cons hd rest ih =>
    intro placed sid
    cases hc : placed.contains hd.id with
    | true =>
      have hc2 : hd.id ∈ placed := by simpa using hc
      simp only [appendRemaining]
      rw [if_pos (by rw [hc])]
      rw [ih placed sid]
      simp only [List.map_cons, List.mem_cons]
      constructor
      · rintro ⟨h1, h2⟩
        exact ⟨Or.inr h1, h2⟩
      · rintro ⟨h1 | h1, h2⟩
        · rw [h1] at h2
          exact absurd hc2 h2
        · exact ⟨h1, h2⟩
    | false =>
      have hc2 : hd.id ∉ placed := by simpa using hc
      simp only [appendRemaining]
      rw [if_neg (by rw [hc]; simp)]
      simp only [List.map_cons, List.mem_cons]
      rw [ih (hd.id :: placed) sid]
      simp only [List.mem_cons]
      constructor
      · rintro (rfl | ⟨h1, h2⟩)
        · exact ⟨Or.inl rfl, hc2⟩
        · exact ⟨Or.inr h1, fun hx => h2 (Or.inr hx)⟩
      · rintro ⟨h1 | h1, h2⟩
        · exact Or.inl h1
        · by_cases hxs : sid = hd.id
          · exact Or.inl hxs
          · refine Or.inr ⟨h1, ?_⟩
            intro hx
            rcases hx with hx | hx
            · exact hxs hx
            · exact h2 hx

theorem appendRemaining_ids_nodup :
    ∀ (steps : List Step) (placed : List String),
      ((appendRemaining steps placed).map (fun st => st.id)).Nodup := by
  intro steps
  induction steps with
  | nil => intro placed; simp [appendRemaining]
  | cons hd rest ih =>
    intro placed
    cases hc : placed.contains hd.id with
    | true =>
      simp only [appendRemaining]
      rw [if_pos (by rw [hc])]
      exact ih placed
    | false =>
      simp only [appendRemaining]
      rw [if_neg (by rw [hc]; simp)]
      simp only [List.map_cons, List.nodup_cons]
      refine ⟨?_, ih (hd.id :: placed)⟩
      intro hmem
      have := (appendRemaining_ids_mem rest (hd.id :: placed) hd.id).1 hmem
      exact this.2 (List.mem_cons_self _ _)

theorem contains_eq_of_mem_iff {l1 l2 : List String} (h : ∀ x, x ∈ l1 ↔ x ∈ l2)
    (a : String) : l1.contains a = l2.contains a := by
  cases h1 : l1.contains a <;> cases h2 : l2.contains a <;> simp_all [h a]

theorem any_id_iff_mem_map (steps : List Step) (sid : String) :
    steps.any (fun st => st.id == sid) = true ↔ sid ∈ steps.map (fun st => st.id) := by
  rw [List.any_eq_true]
  simp only [List.mem_map, beq_iff_eq]

theorem any_lastWithId_some {steps : List Step} {sid : String}
    (h : steps.any (fun st => st.id == sid) = true) :
    ∃ st, lastWithId steps sid = some st := by
  cases hlw : lastWithId steps sid with
  | none =>
    have := (lastWithId_eq_none_iff steps sid).1 hlw
    rw [h] at this
    cases this
  | some st => exact ⟨st, rfl⟩

theorem filterMap_lastWithId_ids (steps : List Step) :
    ∀ l : List String, (∀ sid ∈ l, steps.any (fun st => st.id == sid) = true) →
      ((l.filterMap (fun sid => lastWithId steps sid)).map (fun st => st.id)) = l := by
  intro l
  induction l with
  | nil => intro _; rfl
  | cons sid rest ih =>
    intro hall
    obtain ⟨st, hst⟩ := any_lastWithId_some (hall sid (List.mem_cons_self _ _))
    simp only [List.filterMap_cons, hst, List.map_cons]
    rw [(lastWithId_mem hst).2, ih (fun x hx => hall x (List.mem_cons_of_mem _ hx))]

theorem countP_id_eq_count_map (l : List Step) (sid : String) :
    l.countP (fun st => st.id == sid) = (l.map (fun st => st.id)).count sid := by
  induction l with
  | nil => rfl
  | cons st rest ih =>
    rw [List.countP_cons, List.map_cons, List.count_cons, ih]

theorem eq_of_id_eq_of_nodup {steps : List Step}
    (hnd : (steps.map (fun st => st.id)).Nodup) :
    ∀ r ∈ steps, ∀ st ∈ steps, r.id = st.id → r = st := by
  induction steps with
  | nil => intro r hr; cases hr
  | cons hd rest ih =>
    simp only [List.map_cons, List.nodup_cons] at hnd
    intro r hr st hst hid
    rcases List.mem_cons.1 hr with rfl | hr2 <;> rcases List.mem_cons.1 hst with rfl | hst2
    · rfl
    · have hm : st.id ∈ List.map (fun x => x.id) rest := List.mem_map_of_mem _ hst2
      rw [← hid] at hm
      exact absurd hm hnd.1
    · have hm : r.id ∈ List.map (fun x => x.id) rest := List.mem_map_of_mem _ hr2
      rw [hid] at hm
      exact absurd hm hnd.1
    · exact ih hnd.2 r hr2 st hst2 hid

/-- C5: for a plan whose step ids are pairwise distinct (the data-model
invariant), Reorder places the steps named by newOrder first, in the given
sequence with only the first occurrence of a duplicated id taking effect,
ignores unknown ids, and appends every unmentioned step afterward in its prior
relative order — stated as equality with the specification-side reordering
function. -/
theorem reorder_matches_spec (pl : Plan) (newOrder : List String)
    (hnd : (pl.Steps.map (fun st => st.id)).Nodup) :
    (pl.Reorder newOrder).Steps = ReorderSpec pl.Steps newOrder := by
  cases hem : pl.Steps.isEmpty with
  | true =>
    have hsteps : pl.Steps = [] := by
      cases hl : pl.Steps with
      | nil => rfl
      | cons a l => rw [hl] at hem; cases hem
    simp [Plan.Reorder, ReorderSpec, hem, hsteps, firstOccurrences, firstOccurrencesGo]
  | false =>
    have heff : firstOccurrences
        (newOrder.filter (fun sid => pl.Steps.any (fun st => st.id == sid))) =
        effIds pl.Steps newOrder [] :=
      (effIds_eq_firstOccurrencesGo pl.Steps newOrder []).symm
    have hfun : (fun sid => lastWithId pl.Steps sid) =
        (fun sid => pl.Steps.find? (fun st => st.id == sid)) :=
      funext (fun sid => lastWithId_eq_find? hnd sid)
    have hred : (pl.Reorder newOrder).Steps =
        (placeByOrder pl.Steps newOrder []).1 ++
          appendRemaining pl.Steps (placeByOrder pl.Steps newOrder []).2 := by
      simp only [Plan.Reorder, hem, Bool.false_eq_true]
      rw [if_neg id]
    rw [hred]
    simp only [ReorderSpec]
    rw [heff, placeByOrder_fst, hfun]
    congr 1
    rw [appendRemaining_eq_filter hnd]
    apply List.filter_congr
    intro st hst
    have hmemiff : ∀ x, x ∈ (placeByOrder pl.Steps newOrder []).2 ↔
        x ∈ effIds pl.Steps newOrder [] := by
      intro x
      rw [placeByOrder_snd_mem]
      simp
    rw [contains_eq_of_mem_iff hmemiff st.id]

/-- Witness for C5: on a plan with steps a, b, c and newOrder [b, a] the
reordering agrees with the specification-side function and yields exactly
[b, a, c]. -/
theorem reorder_matches_spec_witness :
    ((Plan.Reorder
        ⟨"p", [⟨"a", "", "TODO", none, none, 0⟩, ⟨"b", "", "TODO", none, none, 0⟩,
               ⟨"c", "", "TODO", none, none, 0⟩], false⟩ ["b", "a"]).Steps =
      ReorderSpec
        [⟨"a", "", "TODO", none, none, 0⟩, ⟨"b", "", "TODO", none, none, 0⟩,
         ⟨"c", "", "TODO", none, none, 0⟩] ["b", "a"]) ∧
    ((Plan.Reorder
        ⟨"p", [⟨"a", "", "TODO", none, none, 0⟩, ⟨"b", "", "TODO", none, none, 0⟩,
               ⟨"c", "", "TODO", none, none, 0⟩], false⟩ ["b", "a"]).Steps.map
        (fun st => st.id) = ["b", "a", "c"]) :=
  ⟨reorder_matches_spec
      ⟨"p", [⟨"a", "", "TODO", none, none, 0⟩, ⟨"b", "", "TODO", none, none, 0⟩,
             ⟨"c", "", "TODO", none, none, 0⟩], false⟩ ["b", "a"] (by decide),
   by decide⟩

theorem reorder_steps_eq (pl : Plan) (newOrder : List String) :
    (pl.Reorder newOrder).Steps =
      (placeByOrder pl.Steps newOrder []).1 ++
        appendRemaining pl.Steps (placeByOrder pl.Steps newOrder []).2 := by
  cases hem : pl.Steps.isEmpty with
  | true =>
    have hsteps : pl.Steps = [] := by
      cases hl : pl.Steps with
      | nil => rfl
      | cons a l => rw [hl] at hem; cases hem
    have heis : effIds pl.Steps newOrder [] = [] := by
      rw [List.eq_nil_iff_forall_not_mem]
      intro x hx
      have h2 := ((effIds_mem pl.Steps newOrder [] x).1 hx).2.1
      rw [hsteps] at h2
      cases h2
    have h1 : (placeByOrder pl.Steps newOrder []).1 = [] := by
      rw [placeByOrder_fst, heis]
      rfl
    have h2 : appendRemaining pl.Steps (placeByOrder pl.Steps newOrder []).2 = [] := by
      rw [hsteps]
      rfl
    rw [h1, h2]
    simp [Plan.Reorder, hem, hsteps]
  | false =>
    simp only [Plan.Reorder, hem, Bool.false_eq_true]
    rw [if_neg id]

theorem reorder_subset (pl : Plan) (newOrder : List String) :
    ∀ st ∈ (pl.Reorder newOrder).Steps, st ∈ pl.Steps := by
  intro st hst
  rw [reorder_steps_eq] at hst
  rcases List.mem_append.1 hst with h | h
  · rw [placeByOrder_fst] at h
    obtain ⟨sid, _, hlw⟩ := List.mem_filterMap.1 h
    exact (lastWithId_mem hlw).1
  · exact appendRemaining_subset pl.Steps _ st h

theorem reorder_ids_eq_effIds_append (pl : Plan) (newOrder : List String) :
    ((pl.Reorder newOrder).Steps.map (fun st => st.id)) =
      effIds pl.Steps newOrder [] ++
        ((appendRemaining pl.Steps (placeByOrder pl.Steps newOrder []).2).map
          (fun st => st.id)) := by
  rw [reorder_steps_eq, List.map_append, placeByOrder_fst]
  rw [filterMap_lastWithId_ids pl.Steps (effIds pl.Steps newOrder [])
    (fun sid hsid => ((effIds_mem pl.Steps newOrder [] sid).1 hsid).2.1)]

theorem reorder_ids_nodup (pl : Plan) (newOrder : List String) :
    ((pl.Reorder newOrder).Steps.map (fun st => st.id)).Nodup := by
  rw [reorder_ids_eq_effIds_append]
  rw [List.nodup_append]
  refine ⟨effIds_nodup pl.Steps newOrder [], appendRemaining_ids_nodup pl.Steps _, ?_⟩
  intro x hx hx2
  have hout : x ∈ (placeByOrder pl.Steps newOrder []).2 :=
    (placeByOrder_snd_mem pl.Steps newOrder [] x).2 (Or.inl hx)
  exact ((appendRemaining_ids_mem pl.Steps _ x).1 hx2).2 hout

theorem reorder_ids_mem (pl : Plan) (newOrder : List String) (sid : String) :
    sid ∈ ((pl.Reorder newOrder).Steps.map (fun st => st.id)) ↔
      sid ∈ (pl.Steps.map (fun st => st.id)) := by
  rw [reorder_ids_eq_effIds_append, List.mem_append, appendRemaining_ids_mem]
  constructor
  · rintro (h | ⟨h1, _⟩)
    · exact (any_id_iff_mem_map pl.Steps sid).1 ((effIds_mem pl.Steps newOrder [] sid).1 h).2.1
    · exact h1
  · intro h
    by_cases he : sid ∈ effIds pl.Steps newOrder []
    · exact Or.inl he
    · refine Or.inr ⟨h, ?_⟩
      intro hout
      rcases (placeByOrder_snd_mem pl.Steps newOrder [] sid).1 hout with h2 | h2
      · exact he h2
      · cases h2

/-- C10: Reorder on a plan whose in-memory step list repeats an id keeps
exactly one step per distinct id and silently drops the other duplicates, for
any argument including the empty list; every surviving step comes from the
original list; the result is a permutation of the original list whenever step
ids are pairwise distinct, and never is when some id occurs at least twice. -/
theorem reorder_collapses_duplicate_ids (pl : Plan) (newOrder : List String) :
    (∀ sid : String, (pl.Reorder newOrder).Steps.countP (fun st => st.id == sid) =
      if pl.Steps.any (fun st => st.id == sid) = true then 1 else 0) ∧
    (∀ st ∈ (pl.Reorder newOrder).Steps, st ∈ pl.Steps) ∧
    ((pl.Steps.map (fun st => st.id)).Nodup →
      (pl.Reorder newOrder).Steps.Perm pl.Steps) ∧
    (∀ sid : String, 2 ≤ pl.Steps.countP (fun st => st.id == sid) →
      ¬ (pl.Reorder newOrder).Steps.Perm pl.Steps) := by
  have hcount : ∀ sid : String,
      (pl.Reorder newOrder).Steps.countP (fun st => st.id == sid) =
        if pl.Steps.any (fun st => st.id == sid) = true then 1 else 0 := by
    intro sid
    rw [countP_id_eq_count_map]
    by_cases hany : pl.Steps.any (fun st => st.id == sid) = true
    · rw [if_pos hany]
      have hmem : sid ∈ ((pl.Reorder newOrder).Steps.map (fun st => st.id)) :=
        (reorder_ids_mem pl newOrder sid).2 ((any_id_iff_mem_map pl.Steps sid).1 hany)
      exact List.count_eq_one_of_mem (reorder_ids_nodup pl newOrder) hmem
    · rw [if_neg hany]
      refine List.count_eq_zero_of_not_mem ?_
      intro hmem
      exact hany ((any_id_iff_mem_map pl.Steps sid).2
        ((reorder_ids_mem pl newOrder sid).1 hmem))
  refine ⟨hcount, reorder_subset pl newOrder, fun hnd => ?_, fun sid h2 hperm => ?_⟩
  · have hndres : (pl.Reorder newOrder).Steps.Nodup :=
      (reorder_ids_nodup pl newOrder).of_map _
    have hndsteps : pl.Steps.Nodup := hnd.of_map _
    rw [List.perm_ext_iff_of_nodup hndres hndsteps]
    intro st
    constructor
    · exact reorder_subset pl newOrder st
    · intro hst
      have hid : st.id ∈ ((pl.Reorder newOrder).Steps.map (fun x => x.id)) :=
        (reorder_ids_mem pl newOrder st.id).2 (List.mem_map_of_mem _ hst)
      obtain ⟨r, hr, hrid⟩ := List.mem_map.1 hid
      have hrsteps : r ∈ pl.Steps := reorder_subset pl newOrder r hr
      have : r = st := eq_of_id_eq_of_nodup hnd r hrsteps st hst hrid
      rw [← this]
      exact hr
  · have hc := hperm.countP_eq (fun st => st.id == sid)
    rw [hcount sid] at hc
    by_cases hany : pl.Steps.any (fun st => st.id == sid) = true
    · rw [if_pos hany] at hc
      omega
    · rw [if_neg hany] at hc
      omega

/-- Witness for C10 at a concrete input: the duplicate-id plan reordered with
the empty list keeps one step for id x and is not a permutation of the
original two-step list. -/
theorem reorder_collapses_duplicate_ids_witness :
    2 ≤ planDupX.Steps.countP (fun st => st.id == "x") ∧
    ¬ (planDupX.Reorder []).Steps.Perm planDupX.Steps ∧
    (planDupX.Reorder []).Steps.countP (fun st => st.id == "x") = 1 := by
  refine ⟨by decide, (reorder_collapses_duplicate_ids planDupX []).2.2.2 "x" (by decide), ?_⟩
  rw [(reorder_collapses_duplicate_ids planDupX []).1 "x"]
  decide

/-! ### Outcome-map lemmas for Remove -/

theorem lookupRes_mapUpdate_self (r : List (String × Option PlanError)) (k : String)
    (v : Option PlanError) : lookupRes (mapUpdate r k v) k = some v := by
  by_cases hany : r.any (fun e => e.1 == k) = true
  · rw [mapUpdate, if_pos hany]
    induction r with
    | nil => cases hany
    | cons e rest ih =>
      cases he : (e.1 == k) with
      | true =>
        simp only [List.map_cons, he]
        rw [if_pos trivial]
        unfold lookupRes
        rw [List.find?_cons_of_pos _ (by simp)]
        rfl
      | false =>
        simp only [List.map_cons, he]
        rw [if_neg Bool.false_ne_true]
        have hany2 : rest.any (fun e => e.1 == k) = true := by
          cases hany2 : rest.any (fun e => e.1 == k) with
          | true => rfl
          | false =>
            rw [List.any_cons, he, hany2] at hany
            cases hany
        have := ih hany2
        unfold lookupRes at this ⊢
        rw [List.find?_cons_of_neg _ (by simp [he])]
        exact this
  · rw [mapUpdate, if_neg hany]
    induction r with
    | nil =>
      unfold lookupRes
      rw [List.nil_append, List.find?_cons_of_pos _ (by simp)]
      rfl
    | cons e rest ih =>
      have he : (e.1 == k) = false := by
        cases he : (e.1 == k) with
        | true =>
          rw [List.any_cons, he] at hany
          simp at hany
        | false => rfl
      have hany2 : ¬ (rest.any (fun e => e.1 == k) = true) := by
        intro h2
        rw [List.any_cons, h2] at hany
        simp at hany
      unfold lookupRes at ih ⊢
      rw [List.cons_append, List.find?_cons_of_neg _ (by simp [he])]
      exact ih hany2

theorem lookupRes_mapUpdate_other (r : List (String × Option PlanError)) (k k' : String)
    (v : Option PlanError) (hne : k' ≠ k) :
    lookupRes (mapUpdate r k v) k' = lookupRes r k' := by
  have hbk : (k == k') = false := by
    simp only [beq_eq_false_iff_ne, ne_eq]
    exact fun h => hne h.symm
  by_cases hany : r.any (fun e => e.1 == k) = true
  · rw [mapUpdate, if_pos hany]
    clear hany
    induction r with
    | nil => rfl
    | cons e rest ih =>
      cases he : (e.1 == k) with
      | true =>
        simp only [List.map_cons, he]
        rw [if_pos trivial]
        unfold lookupRes
        rw [List.find?_cons_of_neg _ (by simp [hbk]),
            List.find?_cons_of_neg _ (by
              have : (e.1 == k') = false := by
                have heq : e.1 = k := by simpa using he
                rw [heq]
                exact hbk
              simp [this])]
        exact ih
      | false =>
        simp only [List.map_cons, he]
        rw [if_neg Bool.false_ne_true]
        cases hek : (e.1 == k') with
        | true =>
          unfold lookupRes
          rw [List.find?_cons_of_pos _ (by simp [hek]), List.find?_cons_of_pos _ (by simp [hek])]
        | false =>
          unfold lookupRes
          rw [List.find?_cons_of_neg _ (by simp [hek]), List.find?_cons_of_neg _ (by simp [hek])]
          exact ih
  · rw [mapUpdate, if_neg hany]
    induction r with
    | nil =>
      unfold lookupRes
      rw [List.nil_append, List.find?_cons_of_neg _ (by simp [hbk])]
    | cons e rest ih =>
      have hany2 : ¬ (rest.any (fun e => e.1 == k) = true) := by
        intro h2
        rw [List.any_cons, h2] at hany
        simp at hany
      cases hek : (e.1 == k') with
      | true =>
        unfold lookupRes
        rw [List.cons_append, List.find?_cons_of_pos _ (by simp [hek]),
            List.find?_cons_of_pos _ (by simp [hek])]
      | false =>
        unfold lookupRes at ih ⊢
        rw [List.cons_append, List.find?_cons_of_neg _ (by simp [hek]),
            List.find?_cons_of_neg _ (by simp [hek])]
        exact ih hany2

theorem deletePlanCascade_plans_mem (db : DB) (m n : String) :
    n ∈ (deletePlanCascade db m).plans ↔ n ∈ db.plans ∧ n ≠ m := by
  simp [deletePlanCascade, List.mem_filter]

theorem removeLoop_lookup_untouched :
    ∀ (names : List String) (txdb : DB) (results : List (String × Option PlanError))
      (n : String), n ∉ names →
      lookupRes (removeLoop names txdb results).2 n = lookupRes results n := by
  intro names
  induction names with
  | nil => intro txdb results n _; rfl
  | cons m rest ih =>
    intro txdb results n hn
    have hnm : n ≠ m := fun h => hn (h ▸ List.mem_cons_self _ _)
    have hnr : n ∉ rest := fun h => hn (List.mem_cons_of_mem _ h)
    cases hm : txdb.plans.contains m with
    | true =>
      simp only [removeLoop]
      rw [if_pos hm, ih _ _ n hnr, lookupRes_mapUpdate_other _ _ _ _ hnm]
    | false =>
      simp only [removeLoop]
      rw [if_neg (by rw [hm]; simp), ih _ _ n hnr, lookupRes_mapUpdate_other _ _ _ _ hnm]

theorem removeLoop_lookup_isSome :
    ∀ (names : List String) (txdb : DB) (results : List (String × Option PlanError))
      (n : String), n ∈ names →
      (lookupRes (removeLoop names txdb results).2 n).isSome = true := by
  intro names
  induction names with
  | nil => intro _ _ n hn; cases hn
  | cons m rest ih =>
    intro txdb results n hn
    by_cases hnr : n ∈ rest
    · cases hm : txdb.plans.contains m with
      | true =>
        simp only [removeLoop]
        rw [if_pos hm]
        exact ih _ _ n hnr
      | false =>
        simp only [removeLoop]
        rw [if_neg (by rw [hm]; simp)]
        exact ih _ _ n hnr
    · have hnm : n = m := by
        rcases List.mem_cons.1 hn with h | h
        · exact h
        · exact absurd h hnr
      subst hnm
      cases hm : txdb.plans.contains n with
      | true =>
        simp only [removeLoop]
        rw [if_pos hm, removeLoop_lookup_untouched _ _ _ n hnr, lookupRes_mapUpdate_self]
        rfl
      | false =>
        simp only [removeLoop]
        rw [if_neg (by rw [hm]; simp), removeLoop_lookup_untouched _ _ _ n hnr,
          lookupRes_mapUpdate_self]
        rfl

theorem removeLoop_lookup_notfound :
    ∀ (names : List String) (txdb : DB) (results : List (String × Option PlanError))
      (n : String), n ∉ txdb.plans → n ∈ names →
      lookupRes (removeLoop names txdb results).2 n =
        some (some (.removeNotFound n)) := by
  intro names
  induction names with
  | nil => intro _ _ n _ hn; cases hn
  | cons m rest ih =>
    intro txdb results n hplans hn
    cases hm : txdb.plans.contains m with
    | true =>
      have hmem : m ∈ txdb.plans := by simpa using hm
      have hnm : n ≠ m := fun h => hplans (h ▸ hmem)
      have hnr : n ∈ rest := by
        rcases List.mem_cons.1 hn with h | h
        · exact absurd h hnm
        · exact h
      simp only [removeLoop]
      rw [if_pos hm]
      refine ih _ _ n ?_ hnr
      rw [deletePlanCascade_plans_mem]
      rintro ⟨h1, _⟩
      exact hplans h1
    | false =>
      simp only [removeLoop]
      rw [if_neg (by rw [hm]; simp)]
      by_cases hnr : n ∈ rest
      · exact ih _ _ n hplans hnr
      · have hnm : n = m := by
          rcases List.mem_cons.1 hn with h | h
          · exact h
          · exact absurd h hnr
        subst hnm
        rw [removeLoop_lookup_untouched _ _ _ n hnr, lookupRes_mapUpdate_self]

theorem removeLoop_lookup_found :
    ∀ (names : List String) (txdb : DB) (results : List (String × Option PlanError))
      (n : String), names.Nodup → n ∈ names → n ∈ txdb.plans →
      lookupRes (removeLoop names txdb results).2 n = some none := by
  intro names
  induction names with
  | nil => intro _ _ n _ hn; cases hn
  | cons m rest ih =>
    intro txdb results n hnd hn hplans
    have hnd2 := List.nodup_cons.1 hnd
    by_cases hnm : n = m
    · subst hnm
      have hm : txdb.plans.contains n = true := by simpa using hplans
      simp only [removeLoop]
      rw [if_pos hm, removeLoop_lookup_untouched _ _ _ n hnd2.1, lookupRes_mapUpdate_self]
    · have hnr : n ∈ rest := by
        rcases List.mem_cons.1 hn with h | h
        · exact absurd h hnm
        · exact h
      cases hm : txdb.plans.contains m with
      | true =>
        simp only [removeLoop]
        rw [if_pos hm]
        refine ih _ _ n hnd2.2 hnr ?_
        rw [deletePlanCascade_plans_mem]
        exact ⟨hplans, hnm⟩
      | false =>
        simp only [removeLoop]
        rw [if_neg (by rw [hm]; simp)]
        exact ih _ _ n hnd2.2 hnr hplans

theorem removeLoop_exact :
    ∀ (names : List String) (txdb : DB) (results : List (String × Option PlanError)),
      names.Nodup → (∀ n ∈ names, n ∈ txdb.plans) →
      (∀ n ∈ names, results.any (fun e => e.1 == n) = false) →
      removeLoop names txdb results =
        (names.foldl deletePlanCascade txdb,
         results ++ names.map (fun n => (n, (none : Option PlanError)))) := by
  intro names
  induction names with
  | nil => intro txdb results _ _ _; simp [removeLoop]
  | cons m rest ih =>
    intro txdb results hnd hfound hkeys
    have hnd2 := List.nodup_cons.1 hnd
    have hm : txdb.plans.contains m = true := by
      simpa using hfound m (List.mem_cons_self _ _)
    have hupd : mapUpdate results m none = results ++ [(m, none)] := by
      rw [mapUpdate, if_neg (by
        rw [hkeys m (List.mem_cons_self _ _)]
        simp)]
    simp only [removeLoop]
    rw [if_pos hm, hupd, ih (deletePlanCascade txdb m) (results ++ [(m, none)]) hnd2.2
      (fun n hn => by
        rw [deletePlanCascade_plans_mem]
        exact ⟨hfound n (List.mem_cons_of_mem _ hn), fun h => hnd2.1 (h ▸ hn)⟩)
      (fun n hn => by
        rw [List.any_append, hkeys n (List.mem_cons_of_mem _ hn)]
        have : (m == n) = false := by
          simp only [beq_eq_false_iff_ne, ne_eq]
          intro h
          exact hnd2.1 (h ▸ hn)
        simp [this])]
    rw [List.foldl_cons, List.map_cons, List.append_assoc]
    rfl

theorem foldl_cascade_plans_mem :
    ∀ (names : List String) (db : DB) (n : String),
      n ∈ (names.foldl deletePlanCascade db).plans ↔ n ∈ db.plans ∧ n ∉ names := by
  intro names
  induction names with
  | nil => intro db n; simp
  | cons m rest ih =>
    intro db n
    rw [List.foldl_cons, ih, deletePlanCascade_plans_mem]
    simp only [List.mem_cons]
    tauto

theorem lookupRes_some_any {r : List (String × Option PlanError)} {n : String}
    {e : PlanError} (h : lookupRes r n = some (some e)) :
    r.any (fun x => x.2.isSome) = true := by
  unfold lookupRes at h
  cases hf : r.find? (fun x => x.1 == n) with
  | none => rw [hf] at h; cases h
  | some entry =>
    rw [hf] at h
    have hmem := List.mem_of_find?_eq_some hf
    have hval : entry.2 = some e := by
      simpa using h
    rw [List.any_eq_true]
    exact ⟨entry, hmem, by rw [hval]; rfl⟩

theorem mapNone_any_false (names : List String) :
    (names.map (fun n => (n, (none : Option PlanError)))).any (fun e => e.2.isSome) = false := by
  induction names with
  | nil => rfl
  | cons m rest ih => simp [ih]

theorem lookupRes_map_revise (r : List (String × Option PlanError)) (n : String) :
    lookupRes (r.map (fun e => if e.2.isNone then (e.1, some PlanError.removeCommitRevised) else e)) n =
      (lookupRes r n).map (fun o => o.elim (some PlanError.removeCommitRevised) some) := by
  induction r with
  | nil => rfl
  | cons e rest ih =>
    obtain ⟨k, v⟩ := e
    unfold lookupRes at ih ⊢
    rw [List.map_cons]
    cases hek : (k == n) with
    | true =>
      cases v with
      | none =>
        rw [if_pos (by simp)]
        rw [List.find?_cons_of_pos _ (by simp [hek]), List.find?_cons_of_pos _ (by simp [hek])]
        rfl
      | some x =>
        rw [if_neg (by simp)]
        rw [List.find?_cons_of_pos _ (by simp [hek]), List.find?_cons_of_pos _ (by simp [hek])]
        rfl
    | false =>
      rw [List.find?_cons_of_neg _ (by cases v <;> simp [hek]),
          List.find?_cons_of_neg _ (by simp [hek])]
      exact ih

/-- C1 amended: a name is reported as success only if its delete executed in
the transaction.  Every listed name gets an outcome entry (siblings are still
attempted) and a not-found name always carries its own per-name error.  When
all names are found and the commit succeeds, the plans are durably deleted and
every entry is a success; when the commit itself fails, no entry claims
success.  However, when the transaction is rolled back because some other
listed name failed, the database is unchanged yet every found name still
carries a success entry — the revision happens only on the commit-failure
path. -/
theorem remove_outcome_map_spec (db : DB) (names : List String) (c : Bool) :
    (∀ n ∈ names, (lookupRes (Planner.Remove db names c).2 n).isSome = true) ∧
    (∀ n ∈ names, n ∉ db.plans →
      lookupRes (Planner.Remove db names c).2 n = some (some (.removeNotFound n))) ∧
    (names.Nodup → (∀ n ∈ names, n ∈ db.plans) →
      Planner.Remove db names true =
        (names.foldl deletePlanCascade db,
         names.map (fun n => (n, (none : Option PlanError)))) ∧
      ∀ n ∈ names, n ∉ (Planner.Remove db names true).1.plans) ∧
    (names.Nodup → (∀ n ∈ names, n ∈ db.plans) →
      (Planner.Remove db names false).1 = db ∧
      ∀ e ∈ (Planner.Remove db names false).2, e.2 ≠ none) ∧
    ((∃ m ∈ names, m ∉ db.plans) →
      (Planner.Remove db names c).1 = db ∧
      (names.Nodup → ∀ n ∈ names, n ∈ db.plans →
        lookupRes (Planner.Remove db names c).2 n = some none)) := by
  refine ⟨?_, ?_, ?_, ?_, ?_⟩
  · intro n hn
    have hloop := removeLoop_lookup_isSome names db [] n hn
    simp only [Planner.Remove]
    cases hE : (removeLoop names db []).2.any (fun e => e.2.isSome) with
    | true => simpa using hloop
    | false =>
      simp only [Bool.not_false, if_pos rfl]
      cases c with
      | true => simpa using hloop
      | false =>
        rw [if_pos trivial, if_neg (by simp)]
        rw [lookupRes_map_revise]
        by_cases hu : n = "_"
        · subst hu
          rw [lookupRes_mapUpdate_self]
          rfl
        · rw [lookupRes_mapUpdate_other _ _ _ _ hu]
          cases hlk : lookupRes (removeLoop names db []).2 n with
          | none => rw [hlk] at hloop; cases hloop
          | some o => rfl
  · intro n hn hnp
    have hval := removeLoop_lookup_notfound names db [] n hnp hn
    have hE : (removeLoop names db []).2.any (fun e => e.2.isSome) = true :=
      lookupRes_some_any hval
    simp only [Planner.Remove]
    rw [hE]
    simpa using hval
  · intro hnd hfound
    have hout := removeLoop_exact names db [] hnd (fun n hn => hfound n hn)
      (fun n _ => rfl)
    have hE := mapNone_any_false names
    constructor
    · simp only [Planner.Remove]
      rw [hout]
      simp only [List.nil_append]
      rw [hE, if_pos (by simp), if_pos trivial]
    · intro n hn
      simp only [Planner.Remove]
      rw [hout]
      simp only [List.nil_append]
      rw [hE, if_pos (by simp), if_pos trivial]
      rw [foldl_cascade_plans_mem]
      rintro ⟨_, h2⟩
      exact h2 hn
  · intro hnd hfound
    have hout := removeLoop_exact names db [] hnd (fun n hn => hfound n hn)
      (fun n _ => rfl)
    have hE := mapNone_any_false names
    constructor
    · simp only [Planner.Remove]
      rw [hout]
      simp only [List.nil_append]
      rw [hE, if_pos (by simp), if_neg (by simp)]
    · intro e he
      simp only [Planner.Remove] at he
      rw [hout] at he
      simp only [List.nil_append] at he
      rw [hE, if_pos (by simp), if_neg (by simp)] at he
      obtain ⟨e', _, rfl⟩ := List.mem_map.1 he
      cases he2 : e'.2 with
      | none => simp [he2]
      | some x => simp [he2]
  · rintro ⟨m, hm, hmp⟩
    have hval := removeLoop_lookup_notfound names db [] m hmp hm
    have hE : (removeLoop names db []).2.any (fun e => e.2.isSome) = true :=
      lookupRes_some_any hval
    constructor
    · simp only [Planner.Remove]
      rw [hE]
      simp
    · intro hnd n hn hnp
      have := removeLoop_lookup_found names db [] n hnd hn hnp
      simp only [Planner.Remove]
      rw [hE]
      simpa using this

/-- Witness for C1 at a concrete input: removing two existing plans with a
failing commit keeps the database unchanged and leaves no entry claiming
success. -/
theorem remove_outcome_map_spec_witness :
    (Planner.Remove ⟨["a", "b"], [], [], []⟩ ["a", "b"] false).1 = ⟨["a", "b"], [], [], []⟩ ∧
    ∀ e ∈ (Planner.Remove ⟨["a", "b"], [], [], []⟩ ["a", "b"] false).2, e.2 ≠ none :=
  (remove_outcome_map_spec ⟨["a", "b"], [], [], []⟩ ["a", "b"] false).2.2.2.1
    (by decide) (by decide)

/-! ### Compact -/

theorem compactFold_go (res : List (String × Option PlanError)) :
    ∀ (k : Nat) (f : Option CompactFirst),
      res.foldl (fun acc e =>
        match e.2 with
        | none => acc
        | some err =>
          (acc.1 + 1,
           match acc.2 with
           | some f => some f
           | none => some (if e.1 == "_" then .txLevel err else .perPlan e.1 err))) (k, f) =
      (k + res.countP (fun e => e.2.isSome),
       match f with
       | some f0 => some f0
       | none => (res.find? (fun e => e.2.isSome)).bind
           (fun e => e.2.map (fun err => if e.1 == "_" then CompactFirst.txLevel err
              else CompactFirst.perPlan e.1 err))) := by
  induction res with
  | nil =>
    intro k f
    simp only [List.foldl_nil, List.countP_nil, Nat.add_zero, List.find?_nil]
    cases f <;> rfl
  | cons e rest ih =>
    intro k f
    cases he : e.2 with
    | none =>
      rw [List.foldl_cons]
      have hpred : (e.2.isSome : Bool) = false := by rw [he]; rfl
      rw [List.countP_cons, hpred]
      rw [List.find?_cons_of_neg _ (by simp [hpred])]
      simp only [he]
      rw [ih k f]
      simp
    | some err =>
      rw [List.foldl_cons]
      have hpred : (e.2.isSome : Bool) = true := by rw [he]; rfl
      rw [List.countP_cons, hpred]
      rw [List.find?_cons_of_pos _ (by simp [hpred])]
      simp only [he]
      cases f with
      | some f0 =>
        rw [ih (k+1) (some f0)]
        simp only [Prod.mk.injEq, if_pos trivial]
        exact ⟨by omega, trivial⟩
      | none =>
        rw [ih (k+1) (some (if e.1 == "_" then .txLevel err else .perPlan e.1 err))]
        simp only [Prod.mk.injEq, if_pos trivial]
        refine ⟨by omega, ?_⟩
        simp [he]

theorem compactCandidates_mem (db : DB) (p : String) :
    p ∈ compactCandidates db ↔
      p ∈ db.plans ∧ ∀ s ∈ db.steps, s.planId = p → s.status = "DONE" := by
  unfold compactCandidates
  rw [List.mem_filter]
  apply and_congr_right
  intro _
  constructor
  · intro h
    simp only [Bool.or_eq_true, beq_iff_eq, List.length_eq_zero] at h
    intro s hs hsp
    have hsmem : s ∈ stepRowsFor db p := by
      unfold stepRowsFor
      rw [List.mem_filter]
      exact ⟨hs, by simp [hsp]⟩
    rcases h with h | h
    · rw [h] at hsmem
      cases hsmem
    · have hdone := List.countP_eq_length.1 h s hsmem
      simpa using hdone
  · intro h
    simp only [Bool.or_eq_true, beq_iff_eq, List.length_eq_zero]
    right
    apply List.countP_eq_length.2
    intro s hsmem
    unfold stepRowsFor at hsmem
    rw [List.mem_filter] at hsmem
    have := h s hsmem.1 (by simpa using hsmem.2)
    simpa using this

/-- C9: Compact selects exactly the plans whose steps are all DONE (vacuously
the plans with zero steps, and never a plan with a TODO step), is a no-op
success when the candidate set is empty, and otherwise delegates deletion to
Remove, returning the database Remove produced; when the outcome map carries
no error Compact succeeds, and when it carries errors Compact fails with a
single aggregate error holding the count of errors and the first encountered
error (a transaction-level entry kept as is, a per-plan entry wrapped with its
plan name). -/
theorem compact_spec (db : DB) (c : Bool) :
    (∀ p, p ∈ compactCandidates db ↔
       p ∈ db.plans ∧ ∀ s ∈ db.steps, s.planId = p → s.status = "DONE") ∧
    (compactCandidates db = [] → Planner.Compact db c = (db, none)) ∧
    (compactCandidates db ≠ [] →
       (Planner.Compact db c).1 = (Planner.Remove db (compactCandidates db) c).1 ∧
       ((∀ e ∈ (Planner.Remove db (compactCandidates db) c).2, e.2 = none) →
          (Planner.Compact db c).2 = none) ∧
       ((Planner.Remove db (compactCandidates db) c).2.countP (fun x => x.2.isSome) ≠ 0 →
          ∃ f, ((Planner.Remove db (compactCandidates db) c).2.find?
                (fun x => x.2.isSome)).bind
              (fun e => e.2.map (fun err => if e.1 == "_" then CompactFirst.txLevel err
                 else CompactFirst.perPlan e.1 err)) = some f ∧
            (Planner.Compact db c).2 = some
              (CompactError.mk
                ((Planner.Remove db (compactCandidates db) c).2.countP (fun x => x.2.isSome))
                f))) := by
  refine ⟨compactCandidates_mem db, ?_, ?_⟩
  · intro h
    simp only [Planner.Compact]
    rw [h]
    rfl
  · intro h
    have hie : (compactCandidates db).isEmpty = false := by
      cases hc : compactCandidates db with
      | nil => exact absurd hc h
      | cons a l => rfl
    have hfold : compactFold (Planner.Remove db (compactCandidates db) c).2 =
        ((Planner.Remove db (compactCandidates db) c).2.countP (fun x => x.2.isSome),
         ((Planner.Remove db (compactCandidates db) c).2.find? (fun x => x.2.isSome)).bind
           (fun e => e.2.map (fun err => if e.1 == "_" then CompactFirst.txLevel err
              else CompactFirst.perPlan e.1 err))) := by
      unfold compactFold
      rw [compactFold_go]
      simp
    refine ⟨?_, ?_, ?_⟩
    · simp only [Planner.Compact]
      rw [hie]
      rw [if_neg (by simp)]
      rw [hfold]
      cases hb : ((Planner.Remove db (compactCandidates db) c).2.find?
          (fun x => x.2.isSome)).bind
            (fun e => e.2.map (fun err => if e.1 == "_" then CompactFirst.txLevel err
               else CompactFirst.perPlan e.1 err)) with
      | none => rfl
      | some f => rfl
    · intro hall
      have hfind : (Planner.Remove db (compactCandidates db) c).2.find?
          (fun x => x.2.isSome) = none := by
        rw [List.find?_eq_none]
        intro x hx
        rw [hall x hx]
        simp
      simp only [Planner.Compact]
      rw [hie]
      rw [if_neg (by simp)]
      rw [hfold, hfind]
      rfl
    · intro hcount
      have hpos : 0 < (Planner.Remove db (compactCandidates db) c).2.countP
          (fun x => x.2.isSome) := Nat.pos_of_ne_zero hcount
      have hex := List.countP_pos_iff.1 hpos
      have hfind : ((Planner.Remove db (compactCandidates db) c).2.find?
          (fun x => x.2.isSome)).isSome = true := by
        rw [List.find?_isSome]
        obtain ⟨a, ha, hpa⟩ := hex
        exact ⟨a, ha, hpa⟩
      obtain ⟨e, he⟩ := Option.isSome_iff_exists.1 hfind
      have hpred : (e.2.isSome : Bool) = true := by
        have h2 := List.find?_some (p := fun (x : String × Option PlanError) => x.2.isSome) he
        simpa using h2
      obtain ⟨err, herr⟩ := Option.isSome_iff_exists.1 hpred
      refine ⟨if e.1 == "_" then CompactFirst.txLevel err else CompactFirst.perPlan e.1 err,
        ?_, ?_⟩
      · rw [he]
        simp [herr]
      · simp only [Planner.Compact]
        rw [hie]
        rw [if_neg (by simp)]
        rw [hfold, he]
        simp [herr]

/-- A database with an all-DONE plan p, a zero-step plan q and a plan r with a
TODO step. -/
def dbMix : DB :=
  { plans := ["p", "q", "r"],
    steps := [{ planId := "p", id := "x", description := "d", status := "DONE", stepOrder := 0 },
              { planId := "r", id := "y", description := "d", status := "TODO", stepOrder := 0 }],
    criteria := [], refs := [] }

/-- Witness for C9 at a concrete input: on dbMix the candidate set is
nonempty, Compact returns the database produced by Remove, and since the
outcome map carries no error Compact succeeds. -/
theorem compact_spec_witness :
    (Planner.Compact dbMix true).1 = (Planner.Remove dbMix (compactCandidates dbMix) true).1 ∧
    (Planner.Compact dbMix true).2 = none :=
  ⟨((compact_spec dbMix true).2.2 (by decide)).1,
   ((compact_spec dbMix true).2.2 (by decide)).2.1 (by decide)⟩

/-! ### Save: row-level characterization -/

/-- The step row written by the save loop for step st at position i. -/
def mkRow (planId : String) (st : Step) (i : Nat) : StepRow :=
  { planId := planId, id := st.id, description := st.description,
    status := st.status, stepOrder := i }

/-- The criteria rows written by the save loop for one step, from index j. -/
def critRowsOf (planId stepId : String) : Nat → List String → List CritRow
  | _, [] => []
  | j, c :: rest =>
    { planId := planId, stepId := stepId, criterionOrder := j, criterion := c } ::
      critRowsOf planId stepId (j+1) rest

/-- The reference rows written by the save loop for one step, from index j. -/
def refRowsOf (planId stepId : String) : Nat → List String → List RefRow
  | _, [] => []
  | j, c :: rest =>
    { planId := planId, stepId := stepId, referenceOrder := j, reference := c } ::
      refRowsOf planId stepId (j+1) rest

theorem updateStepRow_ok {db db2 : DB} {planId stepId description status : String}
    {ord : Nat} (h : updateStepRow db planId stepId description status ord = .ok db2) :
    db2.steps = db.steps.map (fun r =>
      if r.planId == planId && r.id == stepId then
        { r with description := description, status := status, stepOrder := ord }
      else r) ∧
    db2.plans = db.plans ∧ db2.criteria = db.criteria ∧ db2.refs = db.refs := by
  unfold updateStepRow at h
  split at h
  · cases h
  · cases h
    exact ⟨rfl, rfl, rfl, rfl⟩

theorem insertStepRow_ok {db db2 : DB} {row : StepRow}
    (h : insertStepRow db row = .ok db2) :
    db2.steps = db.steps ++ [row] ∧
    db2.plans = db.plans ∧ db2.criteria = db.criteria ∧ db2.refs = db.refs ∧
    (db.steps.any (fun r => r.planId == row.planId && r.id == row.id)) = false := by
  unfold insertStepRow at h
  split at h
  · cases h
  · split at h
    · cases h
    · cases h
      refine ⟨rfl, rfl, rfl, rfl, ?_⟩
      rename_i hany _
      cases ha : db.steps.any (fun r => r.planId == row.planId && r.id == row.id) with
      | true => exact absurd ha hany
      | false => rfl

theorem insertCriteriaList_state (planId stepId : String) :
    ∀ (l : List String) (j : Nat) (db : DB),
      (insertCriteriaList planId stepId j l db).criteria =
        db.criteria ++ critRowsOf planId stepId j l ∧
      (insertCriteriaList planId stepId j l db).steps = db.steps ∧
      (insertCriteriaList planId stepId j l db).refs = db.refs ∧
      (insertCriteriaList planId stepId j l db).plans = db.plans := by
  intro l
  induction l with
  | nil => intro j db; simp [insertCriteriaList, critRowsOf]
  | cons c rest ih =>
    intro j db
    simp only [insertCriteriaList, critRowsOf]
    obtain ⟨h1, h2, h3, h4⟩ := ih (j+1)
      { db with criteria := db.criteria ++
          [{ planId := planId, stepId := stepId, criterionOrder := j, criterion := c }] }
    refine ⟨?_, h2, h3, h4⟩
    rw [h1]
    simp

theorem insertRefsList_state (planId stepId : String) :
    ∀ (l : List String) (j : Nat) (db : DB),
      (insertRefsList planId stepId j l db).refs =
        db.refs ++ refRowsOf planId stepId j l ∧
      (insertRefsList planId stepId j l db).steps = db.steps ∧
      (insertRefsList planId stepId j l db).criteria = db.criteria ∧
      (insertRefsList planId stepId j l db).plans = db.plans := by
  intro l
  induction l with
  | nil => intro j db; simp [insertRefsList, refRowsOf]
  | cons c rest ih =>
    intro j db
    simp only [insertRefsList, refRowsOf]
    obtain ⟨h1, h2, h3, h4⟩ := ih (j+1)
      { db with refs := db.refs ++
          [{ planId := planId, stepId := stepId, referenceOrder := j, reference := c }] }
    refine ⟨?_, h2, h3, h4⟩
    rw [h1]
    simp

theorem critRowsOf_key (planId stepId : String) :
    ∀ (l : List String) (j : Nat) (r : CritRow), r ∈ critRowsOf planId stepId j l →
      r.planId = planId ∧ r.stepId = stepId := by
  intro l
  induction l with
  | nil => intro j r h; cases h
  | cons c rest ih =>
    intro j r h
    rcases List.mem_cons.1 h with rfl | h2
    · exact ⟨rfl, rfl⟩
    · exact ih (j+1) r h2

theorem refRowsOf_key (planId stepId : String) :
    ∀ (l : List String) (j : Nat) (r : RefRow), r ∈ refRowsOf planId stepId j l →
      r.planId = planId ∧ r.stepId = stepId := by
  intro l
  induction l with
  | nil => intro j r h; cases h
  | cons c rest ih =>
    intro j r h
    rcases List.mem_cons.1 h with rfl | h2
    · exact ⟨rfl, rfl⟩
    · exact ih (j+1) r h2

theorem critRowsFor_delete_insert_self (db : DB) (planId stepId : String)
    (l : List String) :
    critRowsFor (insertCriteriaList planId stepId 0 l (deleteCriteriaFor db planId stepId))
      planId stepId = critRowsOf planId stepId 0 l := by
  unfold critRowsFor
  rw [(insertCriteriaList_state planId stepId l 0 (deleteCriteriaFor db planId stepId)).1]
  rw [List.filter_append]
  have h1 : (deleteCriteriaFor db planId stepId).criteria.filter
      (fun r => r.planId == planId && r.stepId == stepId) = [] := by
    unfold deleteCriteriaFor
    rw [List.filter_eq_nil_iff]
    intro r hr
    have := (List.mem_filter.1 hr).2
    cases hm : (r.planId == planId && r.stepId == stepId) with
    | true => rw [hm] at this; cases this
    | false => exact Bool.false_ne_true
  have h2 : (critRowsOf planId stepId 0 l).filter
      (fun r => r.planId == planId && r.stepId == stepId) = critRowsOf planId stepId 0 l := by
    rw [List.filter_eq_self]
    intro r hr
    obtain ⟨ha, hb⟩ := critRowsOf_key planId stepId l 0 r hr
    simp [ha, hb]
  rw [h1, h2, List.nil_append]

theorem critRowsFor_delete_insert_other (db : DB) (planId stepId pid2 sid2 : String)
    (l : List String) (h : ¬(pid2 = planId ∧ sid2 = stepId)) :
    critRowsFor (insertCriteriaList planId stepId 0 l (deleteCriteriaFor db planId stepId))
      pid2 sid2 = critRowsFor db pid2 sid2 := by
  unfold critRowsFor
  rw [(insertCriteriaList_state planId stepId l 0 (deleteCriteriaFor db planId stepId)).1]
  rw [List.filter_append]
  have h2 : (critRowsOf planId stepId 0 l).filter
      (fun r => r.planId == pid2 && r.stepId == sid2) = [] := by
    rw [List.filter_eq_nil_iff]
    intro r hr
    obtain ⟨ha, hb⟩ := critRowsOf_key planId stepId l 0 r hr
    cases hm : (r.planId == pid2 && r.stepId == sid2) with
    | true =>
      have := Bool.and_eq_true_iff.1 hm
      exact absurd ⟨by rw [← ha]; exact (beq_iff_eq.1 this.1).symm,
        by rw [← hb]; exact (beq_iff_eq.1 this.2).symm⟩ h
    | false => exact Bool.false_ne_true
  rw [h2, List.append_nil]
  unfold deleteCriteriaFor
  simp only []
  induction db.criteria with
  | nil => rfl
  | cons r rest ih =>
    by_cases hr : (r.planId == planId && r.stepId == stepId) = true
    · rw [List.filter_cons, List.filter_cons]
      rw [if_neg (by rw [hr]; simp)]
      have hr2 : (r.planId == pid2 && r.stepId == sid2) = false := by
        have := Bool.and_eq_true_iff.1 hr
        cases hm : (r.planId == pid2 && r.stepId == sid2) with
        | true =>
          have h3 := Bool.and_eq_true_iff.1 hm
          exact absurd ⟨by rw [← beq_iff_eq.1 h3.1, beq_iff_eq.1 this.1],
            by rw [← beq_iff_eq.1 h3.2, beq_iff_eq.1 this.2]⟩ h
        | false => rfl
      rw [if_neg (by rw [hr2]; simp)]
      exact ih
    · have hf : (r.planId == planId && r.stepId == stepId) = false := by
        cases hx : (r.planId == planId && r.stepId == stepId) with
        | true => exact absurd hx hr
        | false => rfl
      rw [List.filter_cons, List.filter_cons, if_pos (by rw [hf]; rfl)]
      rw [List.filter_cons]
      by_cases hm : (r.planId == pid2 && r.stepId == sid2) = true
      · rw [if_pos hm, if_pos hm]
        rw [ih]
      · rw [if_neg hm, if_neg hm]
        exact ih

theorem refRowsFor_delete_insert_self (db : DB) (planId stepId : String)
    (l : List String) :
    refRowsFor (insertRefsList planId stepId 0 l (deleteRefsFor db planId stepId))
      planId stepId = refRowsOf planId stepId 0 l := by
  unfold refRowsFor
  rw [(insertRefsList_state planId stepId l 0 (deleteRefsFor db planId stepId)).1]
  rw [List.filter_append]
  have h1 : (deleteRefsFor db planId stepId).refs.filter
      (fun r => r.planId == planId && r.stepId == stepId) = [] := by
    unfold deleteRefsFor
    rw [List.filter_eq_nil_iff]
    intro r hr
    have := (List.mem_filter.1 hr).2
    cases hm : (r.planId == planId && r.stepId == stepId) with
    | true => rw [hm] at this; cases this
    | false => exact Bool.false_ne_true
  have h2 : (refRowsOf planId stepId 0 l).filter
      (fun r => r.planId == planId && r.stepId == stepId) = refRowsOf planId stepId 0 l := by
    rw [List.filter_eq_self]
    intro r hr
    obtain ⟨ha, hb⟩ := refRowsOf_key planId stepId l 0 r hr
    simp [ha, hb]
  rw [h1, h2, List.nil_append]

theorem refRowsFor_delete_insert_other (db : DB) (planId stepId pid2 sid2 : String)
    (l : List String) (h : ¬(pid2 = planId ∧ sid2 = stepId)) :
    refRowsFor (insertRefsList planId stepId 0 l (deleteRefsFor db planId stepId))
      pid2 sid2 = refRowsFor db pid2 sid2 := by
  unfold refRowsFor
  rw [(insertRefsList_state planId stepId l 0 (deleteRefsFor db planId stepId)).1]
  rw [List.filter_append]
  have h2 : (refRowsOf planId stepId 0 l).filter
      (fun r => r.planId == pid2 && r.stepId == sid2) = [] := by
    rw [List.filter_eq_nil_iff]
    intro r hr
    obtain ⟨ha, hb⟩ := refRowsOf_key planId stepId l 0 r hr
    cases hm : (r.planId == pid2 && r.stepId == sid2) with
    | true =>
      have := Bool.and_eq_true_iff.1 hm
      exact absurd ⟨by rw [← ha]; exact (beq_iff_eq.1 this.1).symm,
        by rw [← hb]; exact (beq_iff_eq.1 this.2).symm⟩ h
    | false => exact Bool.false_ne_true
  rw [h2, List.append_nil]
  unfold deleteRefsFor
  simp only []
  induction db.refs with
  | nil => rfl
  | cons r rest ih =>
    by_cases hr : (r.planId == planId && r.stepId == stepId) = true
    · rw [List.filter_cons, List.filter_cons]
      rw [if_neg (by rw [hr]; simp)]
      have hr2 : (r.planId == pid2 && r.stepId == sid2) = false := by
        have := Bool.and_eq_true_iff.1 hr
        cases hm : (r.planId == pid2 && r.stepId == sid2) with
        | true =>
          have h3 := Bool.and_eq_true_iff.1 hm
          exact absurd ⟨by rw [← beq_iff_eq.1 h3.1, beq_iff_eq.1 this.1],
            by rw [← beq_iff_eq.1 h3.2, beq_iff_eq.1 this.2]⟩ h
        | false => rfl
      rw [if_neg (by rw [hr2]; simp)]
      exact ih
    · have hf : (r.planId == planId && r.stepId == stepId) = false := by
        cases hx : (r.planId == planId && r.stepId == stepId) with
        | true => exact absurd hx hr
        | false => rfl
      rw [List.filter_cons, List.filter_cons, if_pos (by rw [hf]; rfl)]
      rw [List.filter_cons]
      by_cases hm : (r.planId == pid2 && r.stepId == sid2) = true
      · rw [if_pos hm, if_pos hm]
        rw [ih]
      · rw [if_neg hm, if_neg hm]
        exact ih

theorem critRowsFor_ext {db1 db2 : DB} (h : db1.criteria = db2.criteria)
    (planId stepId : String) : critRowsFor db1 planId stepId = critRowsFor db2 planId stepId := by
  unfold critRowsFor
  rw [h]

theorem refRowsFor_ext {db1 db2 : DB} (h : db1.refs = db2.refs)
    (planId stepId : String) : refRowsFor db1 planId stepId = refRowsFor db2 planId stepId := by
  unfold refRowsFor
  rw [h]

theorem stepBody_state (planId stepId : String) (l1 l2 : List String) (db : DB) :
    (insertRefsList planId stepId 0 l2
      (deleteRefsFor (insertCriteriaList planId stepId 0 l1
        (deleteCriteriaFor db planId stepId)) planId stepId)).steps = db.steps ∧
    critRowsFor (insertRefsList planId stepId 0 l2
      (deleteRefsFor (insertCriteriaList planId stepId 0 l1
        (deleteCriteriaFor db planId stepId)) planId stepId)) planId stepId =
      critRowsOf planId stepId 0 l1 ∧
    (∀ pid2 sid2, ¬(pid2 = planId ∧ sid2 = stepId) →
      critRowsFor (insertRefsList planId stepId 0 l2
        (deleteRefsFor (insertCriteriaList planId stepId 0 l1
          (deleteCriteriaFor db planId stepId)) planId stepId)) pid2 sid2 =
        critRowsFor db pid2 sid2) ∧
    refRowsFor (insertRefsList planId stepId 0 l2
      (deleteRefsFor (insertCriteriaList planId stepId 0 l1
        (deleteCriteriaFor db planId stepId)) planId stepId)) planId stepId =
      refRowsOf planId stepId 0 l2 ∧
    (∀ pid2 sid2, ¬(pid2 = planId ∧ sid2 = stepId) →
      refRowsFor (insertRefsList planId stepId 0 l2
        (deleteRefsFor (insertCriteriaList planId stepId 0 l1
          (deleteCriteriaFor db planId stepId)) planId stepId)) pid2 sid2 =
        refRowsFor db pid2 sid2) := by
  have hY := insertCriteriaList_state planId stepId l1 0 (deleteCriteriaFor db planId stepId)
  have hZ := insertRefsList_state planId stepId l2 0
    (deleteRefsFor (insertCriteriaList planId stepId 0 l1
      (deleteCriteriaFor db planId stepId)) planId stepId)
  have hcritX : (insertRefsList planId stepId 0 l2
      (deleteRefsFor (insertCriteriaList planId stepId 0 l1
        (deleteCriteriaFor db planId stepId)) planId stepId)).criteria =
      (insertCriteriaList planId stepId 0 l1 (deleteCriteriaFor db planId stepId)).criteria :=
    hZ.2.2.1
  have hrefsY : (insertCriteriaList planId stepId 0 l1
      (deleteCriteriaFor db planId stepId)).refs = db.refs := hY.2.2.1
  refine ⟨?_, ?_, ?_, ?_, ?_⟩
  · rw [hZ.2.1]
    show (insertCriteriaList planId stepId 0 l1 (deleteCriteriaFor db planId stepId)).steps = db.steps
    rw [hY.2.1]
    rfl
  · rw [critRowsFor_ext hcritX, critRowsFor_delete_insert_self]
  · intro pid2 sid2 h
    rw [critRowsFor_ext hcritX, critRowsFor_delete_insert_other db planId stepId pid2 sid2 l1 h]
  · have : refRowsFor (insertRefsList planId stepId 0 l2
        (deleteRefsFor (insertCriteriaList planId stepId 0 l1
          (deleteCriteriaFor db planId stepId)) planId stepId)) planId stepId =
        refRowsOf planId stepId 0 l2 :=
      refRowsFor_delete_insert_self _ planId stepId l2
    rw [this]
  · intro pid2 sid2 h
    rw [refRowsFor_delete_insert_other _ planId stepId pid2 sid2 l2 h]
    exact refRowsFor_ext hrefsY pid2 sid2

theorem saveStepsLoop_crit_spec (pid : String) (dbStepIDs : List String) :
    ∀ (rest : List Step) (i0 : Nat) (dba dbz : DB),
      saveStepsLoop pid dbStepIDs i0 rest dba = .ok dbz →
      ((rest.map (fun st => st.id)).Nodup) →
      (∀ j (h : j < rest.length),
        critRowsFor dbz pid ((rest.get ⟨j, h⟩).id) =
          critRowsOf pid ((rest.get ⟨j, h⟩).id) 0 ((rest.get ⟨j, h⟩).acceptance.getD []) ∧
        refRowsFor dbz pid ((rest.get ⟨j, h⟩).id) =
          refRowsOf pid ((rest.get ⟨j, h⟩).id) 0 ((rest.get ⟨j, h⟩).references.getD [])) ∧
      (∀ sid, sid ∉ rest.map (fun st => st.id) →
        critRowsFor dbz pid sid = critRowsFor dba pid sid ∧
        refRowsFor dbz pid sid = refRowsFor dba pid sid) := by
  intro rest
  induction rest with
  | nil =>
    intro i0 dba dbz hsave _
    simp only [saveStepsLoop] at hsave
    cases hsave
    exact ⟨fun j h => absurd h (by simp), fun sid _ => ⟨rfl, rfl⟩⟩
  | cons st rest2 ih =>
    intro i0 dba dbz hsave hnd
    simp only [saveStepsLoop, bind, Except.bind] at hsave
    have hstep : ∃ db_u : DB, db_u.criteria = dba.criteria ∧ db_u.refs = dba.refs ∧
        saveStepsLoop pid dbStepIDs (i0+1) rest2
          (insertRefsList pid st.id 0 (st.references.getD [])
            (deleteRefsFor (insertCriteriaList pid st.id 0 (st.acceptance.getD [])
              (deleteCriteriaFor db_u pid st.id)) pid st.id)) = .ok dbz := by
      by_cases hbr : dbStepIDs.contains st.id = true
      · rw [if_pos hbr] at hsave
        cases heq : updateStepRow dba pid st.id st.description st.status i0 with
        | error e => rw [heq] at hsave; cases hsave
        | ok v =>
          rw [heq] at hsave
          obtain ⟨_, _, h3, h4⟩ := updateStepRow_ok heq
          exact ⟨v, h3, h4, hsave⟩
      · rw [if_neg hbr] at hsave
        cases heq : insertStepRow dba { planId := pid, id := st.id, description := st.description, status := st.status, stepOrder := i0 } with
        | error e => rw [heq] at hsave; cases hsave
        | ok v =>
          rw [heq] at hsave
          obtain ⟨_, _, h3, h4, _⟩ := insertStepRow_ok heq
          exact ⟨v, h3, h4, hsave⟩
    obtain ⟨db_u, hcrit_u, hrefs_u, hsave2⟩ := hstep
    have hstate : db_u.criteria = dba.criteria ∧ db_u.refs = dba.refs := ⟨hcrit_u, hrefs_u⟩
    simp only [List.map_cons, List.nodup_cons] at hnd
    obtain ⟨ihD, ihF⟩ := ih (i0+1) _ dbz hsave2 hnd.2
    have hbody := stepBody_state pid st.id (st.acceptance.getD [])
      (st.references.getD []) db_u
    have hheadC : critRowsFor dbz pid st.id =
        critRowsOf pid st.id 0 (st.acceptance.getD []) := by
      rw [(ihF st.id hnd.1).1, hbody.2.1]
    have hheadR : refRowsFor dbz pid st.id =
        refRowsOf pid st.id 0 (st.references.getD []) := by
      rw [(ihF st.id hnd.1).2, hbody.2.2.2.1]
    refine ⟨?_, ?_⟩
    · intro j h
      cases j with
      | zero => exact ⟨hheadC, hheadR⟩
      | succ k =>
        have hk : k < rest2.length := Nat.lt_of_succ_lt_succ h
        exact ihD k hk
    · intro sid hsid
      simp only [List.map_cons, List.mem_cons] at hsid
      push_neg at hsid
      have hne : ¬(pid = pid ∧ sid = st.id) := by
        rintro ⟨_, h2⟩
        exact hsid.1 h2
      obtain ⟨hc, hr⟩ := ihF sid hsid.2
      refine ⟨?_, ?_⟩
      · rw [hc, hbody.2.2.1 pid sid hne, critRowsFor_ext hstate.1]
      · rw [hr, hbody.2.2.2.2 pid sid hne, refRowsFor_ext hstate.2]

theorem stepRowsFor_mem {db : DB} {pid : String} {r : StepRow} :
    r ∈ stepRowsFor db pid ↔ r ∈ db.steps ∧ r.planId = pid := by
  unfold stepRowsFor
  rw [List.mem_filter]
  simp

theorem stepRowsFor_ext (db1 db2 : DB) (h : db1.steps = db2.steps) (pid : String) :
    stepRowsFor db1 pid = stepRowsFor db2 pid := by
  unfold stepRowsFor
  rw [h]

theorem update_map_pk (steps : List StepRow) (pid sid description status : String) (ord : Nat) :
    (steps.map (fun r =>
      if r.planId == pid && r.id == sid then
        { r with description := description, status := status, stepOrder := ord }
      else r)).map (fun r => (r.planId, r.id)) = steps.map (fun r => (r.planId, r.id)) := by
  rw [List.map_map]
  apply List.map_congr_left
  intro r _
  by_cases h : r.planId = pid ∧ r.id = sid
  · simp [h]
  · simp [h]

theorem stepRowsFor_update (db : DB) (pid sid description status : String) (ord : Nat) :
    stepRowsFor { db with steps := db.steps.map (fun r =>
        if r.planId == pid && r.id == sid then
          { r with description := description, status := status, stepOrder := ord }
        else r) } pid =
      (stepRowsFor db pid).map (fun r =>
        if r.planId == pid && r.id == sid then
          { r with description := description, status := status, stepOrder := ord }
        else r) := by
  unfold stepRowsFor
  simp only []
  rw [List.filter_map]
  congr 1
  apply List.filter_congr
  intro r _
  simp only [Function.comp]
  by_cases h : r.planId = pid ∧ r.id = sid
  · simp [h]
  · simp [h]

theorem saveStepsLoop_rows_spec (pid : String) (dbStepIDs : List String) :
    ∀ (rest : List Step) (i0 : Nat) (dba dbz : DB),
      saveStepsLoop pid dbStepIDs i0 rest dba = .ok dbz →
      ((dba.steps.map (fun r => (r.planId, r.id))).Nodup) →
      ((rest.map (fun st => st.id)).Nodup) →
      (∀ st ∈ rest, dbStepIDs.contains st.id = true →
        ∃ r ∈ stepRowsFor dba pid, r.id = st.id) →
      ((dbz.steps.map (fun r => (r.planId, r.id))).Nodup) ∧
      (∀ r ∈ stepRowsFor dbz pid,
        (∃ j, ∃ h : j < rest.length, r = mkRow pid (rest.get ⟨j, h⟩) (i0 + j)) ∨
        (r ∈ stepRowsFor dba pid ∧ r.id ∉ rest.map (fun st => st.id))) ∧
      (∀ j (h : j < rest.length),
        mkRow pid (rest.get ⟨j, h⟩) (i0 + j) ∈ stepRowsFor dbz pid) ∧
      (∀ r ∈ stepRowsFor dba pid, r.id ∉ rest.map (fun st => st.id) →
        r ∈ stepRowsFor dbz pid) := by
  intro rest
  induction rest with
  | nil =>
    intro i0 dba dbz hsave hpk _ _
    simp only [saveStepsLoop] at hsave
    cases hsave
    refine ⟨hpk, ?_, ?_, ?_⟩
    · intro r hr
      exact Or.inr ⟨hr, by simp⟩
    · intro j h
      exact absurd h (by simp)
    · intro r hr _
      exact hr
  | cons st rest2 ih =>
    intro i0 dba dbz hsave hpk hnd hP2
    simp only [saveStepsLoop, bind, Except.bind] at hsave
    simp only [List.map_cons, List.nodup_cons] at hnd
    have hstep : ∃ db_u : DB,
        (∀ r ∈ stepRowsFor db_u pid,
          r = mkRow pid st i0 ∨ (r ∈ stepRowsFor dba pid ∧ r.id ≠ st.id)) ∧
        (mkRow pid st i0 ∈ stepRowsFor db_u pid) ∧
        (∀ r ∈ stepRowsFor dba pid, r.id ≠ st.id → r ∈ stepRowsFor db_u pid) ∧
        ((db_u.steps.map (fun r => (r.planId, r.id))).Nodup) ∧
        saveStepsLoop pid dbStepIDs (i0+1) rest2
          (insertRefsList pid st.id 0 (st.references.getD [])
            (deleteRefsFor (insertCriteriaList pid st.id 0 (st.acceptance.getD [])
              (deleteCriteriaFor db_u pid st.id)) pid st.id)) = .ok dbz := by
      by_cases hbr : dbStepIDs.contains st.id = true
      · rw [if_pos hbr] at hsave
        cases heq : updateStepRow dba pid st.id st.description st.status i0 with
        | error e => rw [heq] at hsave; cases hsave
        | ok v =>
          rw [heq] at hsave
          obtain ⟨hvsteps, _, _, _⟩ := updateStepRow_ok heq
          have hrows : stepRowsFor v pid =
              (stepRowsFor dba pid).map (fun r =>
                if r.planId == pid && r.id == st.id then
                  { r with description := st.description, status := st.status, stepOrder := i0 }
                else r) := by
            rw [stepRowsFor_ext v { dba with steps := dba.steps.map (fun r =>
              if r.planId == pid && r.id == st.id then
                { r with description := st.description, status := st.status, stepOrder := i0 }
              else r) } hvsteps pid]
            exact stepRowsFor_update dba pid st.id st.description st.status i0
          obtain ⟨r0, hr0, hr0id⟩ := hP2 st (List.mem_cons_self _ _) hbr
          have hr0pl : r0.planId = pid := (stepRowsFor_mem.1 hr0).2
          refine ⟨v, ?_, ?_, ?_, ?_, hsave⟩
          · intro r hr
            rw [hrows] at hr
            obtain ⟨r1, hr1, rfl⟩ := List.mem_map.1 hr
            have hr1pl : r1.planId = pid := (stepRowsFor_mem.1 hr1).2
            by_cases hm : (r1.planId == pid && r1.id == st.id) = true
            · left
              have hr1id : r1.id = st.id := beq_iff_eq.1 (Bool.and_eq_true_iff.1 hm).2
              rw [if_pos hm]
              show ({ r1 with description := st.description, status := st.status, stepOrder := i0 } : StepRow) = mkRow pid st i0
              unfold mkRow
              rw [StepRow.mk.injEq]
              exact ⟨hr1pl, hr1id, rfl, rfl, rfl⟩
            · right
              rw [if_neg hm]
              refine ⟨hr1, ?_⟩
              intro hid
              exact hm (by simp [hr1pl, hid])
          · have hm : (r0.planId == pid && r0.id == st.id) = true := by
              simp [hr0pl, hr0id]
            rw [hrows]
            apply List.mem_map.2
            refine ⟨r0, hr0, ?_⟩
            show (if (r0.planId == pid && r0.id == st.id) = true then ({ r0 with description := st.description, status := st.status, stepOrder := i0 } : StepRow) else r0) = mkRow pid st i0
            rw [if_pos hm]
            unfold mkRow
            rw [StepRow.mk.injEq]
            exact ⟨hr0pl, hr0id, rfl, rfl, rfl⟩
          · intro r hr hid
            have hm : (r.planId == pid && r.id == st.id) = false := by
              simp [hid]
            rw [hrows]
            apply List.mem_map.2
            refine ⟨r, hr, ?_⟩
            show (if (r.planId == pid && r.id == st.id) = true then ({ r with description := st.description, status := st.status, stepOrder := i0 } : StepRow) else r) = r
            rw [if_neg (by rw [hm]; simp)]
          · rw [hvsteps, update_map_pk]
            exact hpk
      · rw [if_neg hbr] at hsave
        cases heq : insertStepRow dba { planId := pid, id := st.id, description := st.description, status := st.status, stepOrder := i0 } with
        | error e => rw [heq] at hsave; cases hsave
        | ok v =>
          rw [heq] at hsave
          obtain ⟨hvsteps, _, _, _, hany⟩ := insertStepRow_ok heq
          have hnorow : ∀ r ∈ dba.steps, ¬(r.planId = pid ∧ r.id = st.id) := by
            intro r hr hcon
            have : dba.steps.any (fun x => x.planId == pid && x.id == st.id) = true := by
              rw [List.any_eq_true]
              exact ⟨r, hr, by simp [hcon.1, hcon.2]⟩
            rw [this] at hany
            cases hany
          have hrows : stepRowsFor v pid = stepRowsFor dba pid ++ [mkRow pid st i0] := by
            rw [stepRowsFor_ext v { dba with steps := dba.steps ++ [mkRow pid st i0] }
              (by rw [hvsteps]; rfl) pid]
            unfold stepRowsFor
            simp only []
            rw [List.filter_append]
            have : List.filter (fun r => r.planId == pid) [mkRow pid st i0] =
                [mkRow pid st i0] := by
              rw [List.filter_cons, if_pos (by simp [mkRow])]
              rfl
            rw [this]
          refine ⟨v, ?_, ?_, ?_, ?_, hsave⟩
          · intro r hr
            rw [hrows] at hr
            rcases List.mem_append.1 hr with h | h
            · right
              refine ⟨h, ?_⟩
              intro hid
              exact hnorow r (stepRowsFor_mem.1 h).1 ⟨(stepRowsFor_mem.1 h).2, hid⟩
            · left
              simpa using h
          · rw [hrows]
            exact List.mem_append.2 (Or.inr (by simp))
          · intro r hr _
            rw [hrows]
            exact List.mem_append.2 (Or.inl hr)
          · rw [hvsteps, List.map_append]
            rw [List.nodup_append]
            refine ⟨hpk, by simp, ?_⟩
            intro x hx hx2
            simp only [List.map_cons, List.map_nil, List.mem_singleton] at hx2
            obtain ⟨r, hr, hrx⟩ := List.mem_map.1 hx
            apply hnorow r hr
            rw [hx2] at hrx
            have h1 : r.planId = pid := congrArg Prod.fst hrx
            have h2 : r.id = st.id := congrArg Prod.snd hrx
            exact ⟨h1, h2⟩
    obtain ⟨db_u, hC1, hC2, hC3, hC4, hsave2⟩ := hstep
    have hbodysteps := (stepBody_state pid st.id (st.acceptance.getD [])
      (st.references.getD []) db_u).1
    have hrowsX : stepRowsFor (insertRefsList pid st.id 0 (st.references.getD [])
        (deleteRefsFor (insertCriteriaList pid st.id 0 (st.acceptance.getD [])
          (deleteCriteriaFor db_u pid st.id)) pid st.id)) pid = stepRowsFor db_u pid :=
      stepRowsFor_ext _ _ hbodysteps pid
    have hpkX : (((insertRefsList pid st.id 0 (st.references.getD [])
        (deleteRefsFor (insertCriteriaList pid st.id 0 (st.acceptance.getD [])
          (deleteCriteriaFor db_u pid st.id)) pid st.id)).steps.map
        (fun r => (r.planId, r.id))).Nodup) := by
      rw [hbodysteps]
      exact hC4
    have hP2X : ∀ st2 ∈ rest2, dbStepIDs.contains st2.id = true →
        ∃ r ∈ stepRowsFor (insertRefsList pid st.id 0 (st.references.getD [])
          (deleteRefsFor (insertCriteriaList pid st.id 0 (st.acceptance.getD [])
            (deleteCriteriaFor db_u pid st.id)) pid st.id)) pid, r.id = st2.id := by
      intro st2 hst2 hbr2
      obtain ⟨r, hr, hrid⟩ := hP2 st2 (List.mem_cons_of_mem _ hst2) hbr2
      have hne : r.id ≠ st.id := by
        rw [hrid]
        intro hcon
        exact hnd.1 (hcon ▸ List.mem_map_of_mem _ hst2)
      rw [hrowsX]
      exact ⟨r, hC3 r hr hne, hrid⟩
    obtain ⟨ihN, ihA, ihB, ihH⟩ := ih (i0+1) _ dbz hsave2 hpkX hnd.2 hP2X
    refine ⟨ihN, ?_, ?_, ?_⟩
    · intro r hr
      rcases ihA r hr with ⟨j, h, hrow⟩ | ⟨hmem, hnotin⟩
      · left
        refine ⟨j+1, Nat.succ_lt_succ h, ?_⟩
        rw [hrow]
        have : i0 + 1 + j = i0 + (j + 1) := by omega
        rw [this]
        rfl
      · rw [hrowsX] at hmem
        rcases hC1 r hmem with hmk | ⟨hold, hne⟩
        · left
          exact ⟨0, by simp, by rw [hmk]; rfl⟩
        · right
          refine ⟨hold, ?_⟩
          simp only [List.map_cons, List.mem_cons]
          push_neg
          exact ⟨hne, hnotin⟩
    · intro j h
      cases j with
      | zero =>
        have hmemX : mkRow pid st i0 ∈ stepRowsFor (insertRefsList pid st.id 0
            (st.references.getD []) (deleteRefsFor (insertCriteriaList pid st.id 0
              (st.acceptance.getD []) (deleteCriteriaFor db_u pid st.id)) pid st.id)) pid := by
          rw [hrowsX]
          exact hC2
        have := ihH (mkRow pid st i0) hmemX (by
          show st.id ∉ rest2.map (fun st => st.id)
          exact hnd.1)
        simpa using this
      | succ k =>
        have hk : k < rest2.length := Nat.lt_of_succ_lt_succ h
        have := ihB k hk
        have harith : i0 + 1 + k = i0 + (k + 1) := by omega
        rw [harith] at this
        exact this
    · intro r hr hnotin
      simp only [List.map_cons, List.mem_cons] at hnotin
      push_neg at hnotin
      have hX : r ∈ stepRowsFor (insertRefsList pid st.id 0 (st.references.getD [])
          (deleteRefsFor (insertCriteriaList pid st.id 0 (st.acceptance.getD [])
            (deleteCriteriaFor db_u pid st.id)) pid st.id)) pid := by
        rw [hrowsX]
        exact hC3 r hr hnotin.1
      exact ihH r hX hnotin.2

theorem deleteStaleSteps_plans (pid : String) :
    ∀ (stale : List String) (dbq : DB), (deleteStaleSteps pid stale dbq).plans = dbq.plans := by
  intro stale
  induction stale with
  | nil => intro dbq; rfl
  | cons sid rest ih =>
    intro dbq
    simp only [deleteStaleSteps, List.foldl_cons]
    exact ih _

theorem deleteStaleSteps_steps_mem (pid : String) :
    ∀ (stale : List String) (dbq : DB) (r : StepRow),
      r ∈ (deleteStaleSteps pid stale dbq).steps ↔
        r ∈ dbq.steps ∧ ¬(r.planId = pid ∧ r.id ∈ stale) := by
  intro stale
  induction stale with
  | nil =>
    intro dbq r
    simp [deleteStaleSteps]
  | cons sid rest ih =>
    intro dbq r
    simp only [deleteStaleSteps, List.foldl_cons]
    rw [show (List.foldl (fun db sid =>
        deleteStepRow (deleteRefsFor (deleteCriteriaFor db pid sid) pid sid) pid sid) _ rest) =
      deleteStaleSteps pid rest
        (deleteStepRow (deleteRefsFor (deleteCriteriaFor dbq pid sid) pid sid) pid sid) from rfl]
    rw [ih]
    unfold deleteStepRow deleteRefsFor deleteCriteriaFor
    simp only [List.mem_filter]
    constructor
    · rintro ⟨⟨h1, h2⟩, h3⟩
      refine ⟨h1, ?_⟩
      rintro ⟨hp, hin⟩
      rcases List.mem_cons.1 hin with rfl | hin2
      · rw [Bool.not_eq_true', Bool.and_eq_false_iff] at h2
        rcases h2 with h2 | h2 <;> simp [hp] at h2
      · exact h3 ⟨hp, hin2⟩
    · rintro ⟨h1, h2⟩
      refine ⟨⟨h1, ?_⟩, ?_⟩
      · rw [Bool.not_eq_true', Bool.and_eq_false_iff]
        by_cases hp : r.planId = pid
        · right
          have : r.id ≠ sid := by
            intro hid
            exact h2 ⟨hp, hid ▸ List.mem_cons_self _ _⟩
          simp [this]
        · left
          simp [hp]
      · rintro ⟨hp, hin⟩
        exact h2 ⟨hp, List.mem_cons_of_mem _ hin⟩

theorem deleteStaleSteps_steps_sublist (pid : String) :
    ∀ (stale : List String) (dbq : DB),
      (deleteStaleSteps pid stale dbq).steps.Sublist dbq.steps := by
  intro stale
  induction stale with
  | nil => intro dbq; exact List.Sublist.refl _
  | cons sid rest ih =>
    intro dbq
    simp only [deleteStaleSteps, List.foldl_cons]
    refine List.Sublist.trans (ih _) ?_
    unfold deleteStepRow deleteRefsFor deleteCriteriaFor
    simp only []
    exact List.filter_sublist _

theorem saveStepsLoop_plans (pid : String) (dbStepIDs : List String) :
    ∀ (rest : List Step) (i0 : Nat) (dba dbz : DB),
      saveStepsLoop pid dbStepIDs i0 rest dba = .ok dbz → dbz.plans = dba.plans := by
  intro rest
  induction rest with
  | nil =>
    intro i0 dba dbz hsave
    simp only [saveStepsLoop] at hsave
    cases hsave
    rfl
  | cons st rest2 ih =>
    intro i0 dba dbz hsave
    simp only [saveStepsLoop, bind, Except.bind] at hsave
    have hstep : ∃ db_u : DB, db_u.plans = dba.plans ∧
        saveStepsLoop pid dbStepIDs (i0+1) rest2
          (insertRefsList pid st.id 0 (st.references.getD [])
            (deleteRefsFor (insertCriteriaList pid st.id 0 (st.acceptance.getD [])
              (deleteCriteriaFor db_u pid st.id)) pid st.id)) = .ok dbz := by
      by_cases hbr : dbStepIDs.contains st.id = true
      · rw [if_pos hbr] at hsave
        cases heq : updateStepRow dba pid st.id st.description st.status i0 with
        | error e => rw [heq] at hsave; cases hsave
        | ok v =>
          rw [heq] at hsave
          exact ⟨v, (updateStepRow_ok heq).2.1, hsave⟩
      · rw [if_neg hbr] at hsave
        cases heq : insertStepRow dba { planId := pid, id := st.id, description := st.description, status := st.status, stepOrder := i0 } with
        | error e => rw [heq] at hsave; cases hsave
        | ok v =>
          rw [heq] at hsave
          exact ⟨v, (insertStepRow_ok heq).2.1, hsave⟩
    obtain ⟨db_u, hplans, hsave2⟩ := hstep
    have hbody := insertRefsList_state pid st.id (st.references.getD []) 0
      (deleteRefsFor (insertCriteriaList pid st.id 0 (st.acceptance.getD [])
        (deleteCriteriaFor db_u pid st.id)) pid st.id)
    have hbody2 := insertCriteriaList_state pid st.id (st.acceptance.getD []) 0
      (deleteCriteriaFor db_u pid st.id)
    rw [ih (i0+1) _ dbz hsave2, hbody.2.2.2]
    show (insertCriteriaList pid st.id 0 (st.acceptance.getD [])
      (deleteCriteriaFor db_u pid st.id)).plans = dba.plans
    rw [hbody2.2.2.2]
    exact hplans

theorem pk_nodup_ids_list (pid : String) :
    ∀ steps : List StepRow, ((steps.map (fun r => (r.planId, r.id))).Nodup) →
      (((steps.filter (fun r => r.planId == pid)).map (fun r => r.id)).Nodup) := by
  intro steps
  induction steps with
  | nil => intro _; simp
  | cons r rest ih =>
    intro h
    simp only [List.map_cons, List.nodup_cons] at h
    rw [List.filter_cons]
    by_cases hp : (r.planId == pid) = true
    · rw [if_pos hp]
      simp only [List.map_cons, List.nodup_cons]
      refine ⟨?_, ih h.2⟩
      intro hmem
      obtain ⟨r2, hr2, hr2id⟩ := List.mem_map.1 hmem
      have hr2f := List.mem_filter.1 hr2
      apply h.1
      have : (r.planId, r.id) = (r2.planId, r2.id) := by
        rw [Prod.mk.injEq]
        exact ⟨by rw [beq_iff_eq.1 hp, beq_iff_eq.1 hr2f.2], hr2id.symm⟩
      rw [this]
      exact List.mem_map_of_mem _ hr2f.1
    · rw [if_neg hp]
      exact ih h.2

theorem save_after_plan_phase (p : Plan) (db1 db3 : DB)
    (hpk1 : ((db1.steps.map (fun r => (r.planId, r.id))).Nodup))
    (hnd : (p.Steps.map (fun st => st.id)).Nodup)
    (hloop : saveStepsLoop p.ID (dbStepIDsOf db1 p.ID) 0 p.Steps
      (deleteStaleSteps p.ID ((dbStepIDsOf db1 p.ID).filter
        (fun sid => !((p.Steps.map (fun st => st.id)).contains sid))) db1) = .ok db3) :
    ((db3.steps.map (fun r => (r.planId, r.id))).Nodup) ∧
    (∀ r ∈ stepRowsFor db3 p.ID,
      ∃ j, ∃ h : j < p.Steps.length, r = mkRow p.ID (p.Steps.get ⟨j, h⟩) j) ∧
    (∀ j (h : j < p.Steps.length),
      mkRow p.ID (p.Steps.get ⟨j, h⟩) j ∈ stepRowsFor db3 p.ID) ∧
    (∀ j (h : j < p.Steps.length),
      critRowsFor db3 p.ID ((p.Steps.get ⟨j, h⟩).id) =
        critRowsOf p.ID ((p.Steps.get ⟨j, h⟩).id) 0 ((p.Steps.get ⟨j, h⟩).acceptance.getD []) ∧
      refRowsFor db3 p.ID ((p.Steps.get ⟨j, h⟩).id) =
        refRowsOf p.ID ((p.Steps.get ⟨j, h⟩).id) 0 ((p.Steps.get ⟨j, h⟩).references.getD [])) ∧
    db3.plans = db1.plans := by
  have hpk2 : (((deleteStaleSteps p.ID ((dbStepIDsOf db1 p.ID).filter
      (fun sid => !((p.Steps.map (fun st => st.id)).contains sid))) db1).steps.map
      (fun r => (r.planId, r.id))).Nodup) :=
    List.Nodup.sublist (List.Sublist.map _ (deleteStaleSteps_steps_sublist p.ID _ db1)) hpk1
  have hP2 : ∀ st ∈ p.Steps, (dbStepIDsOf db1 p.ID).contains st.id = true →
      ∃ r ∈ stepRowsFor (deleteStaleSteps p.ID ((dbStepIDsOf db1 p.ID).filter
        (fun sid => !((p.Steps.map (fun st => st.id)).contains sid))) db1) p.ID,
        r.id = st.id := by
    intro st hst hc
    have hmem : st.id ∈ dbStepIDsOf db1 p.ID := by simpa using hc
    unfold dbStepIDsOf at hmem
    obtain ⟨r, hr, hrid⟩ := List.mem_map.1 hmem
    have hrpl : r.planId = p.ID := (stepRowsFor_mem.1 hr).2
    have hnotstale : st.id ∉ (dbStepIDsOf db1 p.ID).filter
        (fun sid => !((p.Steps.map (fun st => st.id)).contains sid)) := by
      intro hmem2
      have := (List.mem_filter.1 hmem2).2
      have hcon : (p.Steps.map (fun st => st.id)).contains st.id = true := by
        simp only [List.contains_iff_exists_mem_beq]
        exact ⟨st.id, List.mem_map_of_mem _ hst, by simp⟩
      rw [hcon] at this
      cases this
    refine ⟨r, ?_, hrid⟩
    rw [stepRowsFor_mem]
    refine ⟨?_, hrpl⟩
    rw [deleteStaleSteps_steps_mem]
    refine ⟨(stepRowsFor_mem.1 hr).1, ?_⟩
    rintro ⟨_, hin⟩
    rw [hrid] at hin
    exact hnotstale hin
  obtain ⟨hN, hA, hB, _⟩ := saveStepsLoop_rows_spec p.ID (dbStepIDsOf db1 p.ID)
    p.Steps 0 _ db3 hloop hpk2 hnd hP2
  obtain ⟨hD, _⟩ := saveStepsLoop_crit_spec p.ID (dbStepIDsOf db1 p.ID)
    p.Steps 0 _ db3 hloop hnd
  refine ⟨hN, ?_, ?_, hD, ?_⟩
  · intro r hr
    rcases hA r hr with ⟨j, h, hrow⟩ | ⟨hmem, hnotin⟩
    · refine ⟨j, h, ?_⟩
      rw [hrow]
      rw [Nat.zero_add]
    · exfalso
      have hmem2 := stepRowsFor_mem.1 hmem
      have hdel := (deleteStaleSteps_steps_mem p.ID _ db1 r).1 hmem2.1
      apply hdel.2
      refine ⟨hmem2.2, ?_⟩
      have hrdb1 : r ∈ stepRowsFor db1 p.ID :=
        stepRowsFor_mem.2 ⟨hdel.1, hmem2.2⟩
      have hid1 : r.id ∈ dbStepIDsOf db1 p.ID := by
        unfold dbStepIDsOf
        exact List.mem_map_of_mem _ hrdb1
      rw [List.mem_filter]
      refine ⟨hid1, ?_⟩
      have : (p.Steps.map (fun st => st.id)).contains r.id = false := by
        cases hcc : (p.Steps.map (fun st => st.id)).contains r.id with
        | true =>
          exfalso
          apply hnotin
          simpa using hcc
        | false => rfl
      rw [this]
      rfl
  · intro j h
    have := hB j h
    simpa [Nat.zero_add] using this
  · rw [saveStepsLoop_plans p.ID (dbStepIDsOf db1 p.ID) p.Steps 0 _ db3 hloop]
    exact deleteStaleSteps_plans p.ID _ db1

theorem save_rows_spec {db : DB} {p : Plan} {c : Bool} {db2 : DB} {p2 : Plan}
    (hwf : WF db) (hnd : (p.Steps.map (fun st => st.id)).Nodup)
    (hsave : Planner.Save db p c = .ok (db2, p2)) :
    p.ID ∈ db2.plans ∧
    ((db2.steps.map (fun r => (r.planId, r.id))).Nodup) ∧
    (∀ r ∈ stepRowsFor db2 p.ID,
      ∃ j, ∃ h : j < p.Steps.length, r = mkRow p.ID (p.Steps.get ⟨j, h⟩) j) ∧
    (∀ j (h : j < p.Steps.length),
      mkRow p.ID (p.Steps.get ⟨j, h⟩) j ∈ stepRowsFor db2 p.ID) ∧
    (∀ j (h : j < p.Steps.length),
      critRowsFor db2 p.ID ((p.Steps.get ⟨j, h⟩).id) =
        critRowsOf p.ID ((p.Steps.get ⟨j, h⟩).id) 0 ((p.Steps.get ⟨j, h⟩).acceptance.getD []) ∧
      refRowsFor db2 p.ID ((p.Steps.get ⟨j, h⟩).id) =
        refRowsOf p.ID ((p.Steps.get ⟨j, h⟩).id) 0 ((p.Steps.get ⟨j, h⟩).references.getD [])) := by
  unfold Planner.Save at hsave
  simp only [bind, Except.bind] at hsave
  have hmain : ∃ db1 : DB, db1.steps = db.steps ∧ p.ID ∈ db1.plans ∧
      ∃ db3 : DB, saveStepsLoop p.ID (dbStepIDsOf db1 p.ID) 0 p.Steps
        (deleteStaleSteps p.ID ((dbStepIDsOf db1 p.ID).filter
          (fun sid => !((p.Steps.map (fun st => st.id)).contains sid))) db1) = .ok db3 ∧
      db2 = db3 := by
    by_cases hnew : p.isNew = true
    · rw [hnew, if_pos rfl] at hsave
      by_cases hcont : db.plans.contains p.ID = true
      · rw [if_pos hcont] at hsave
        cases hsave
      · rw [if_neg hcont] at hsave
        refine ⟨{ db with plans := db.plans ++ [p.ID] }, rfl, by simp, ?_⟩
        cases hloop : saveStepsLoop p.ID
            (dbStepIDsOf { db with plans := db.plans ++ [p.ID] } p.ID) 0 p.Steps
            (deleteStaleSteps p.ID
              ((dbStepIDsOf { db with plans := db.plans ++ [p.ID] } p.ID).filter
                (fun sid => !((p.Steps.map (fun st => st.id)).contains sid)))
              { db with plans := db.plans ++ [p.ID] }) with
        | error e =>
          rw [hloop] at hsave
          cases hsave
        | ok db3 =>
          rw [hloop] at hsave
          cases c with
          | false => cases hsave
          | true =>
            refine ⟨db3, rfl, ?_⟩
            have h2 := hsave
            simp only [reduceIte, Except.ok.injEq, Prod.mk.injEq] at h2
            exact h2.1.symm
    · rw [Bool.not_eq_true] at hnew
      rw [hnew, if_neg (by simp)] at hsave
      by_cases hcont : db.plans.contains p.ID = true
      · rw [if_pos hcont] at hsave
        refine ⟨db, rfl, by simpa using hcont, ?_⟩
        cases hloop : saveStepsLoop p.ID (dbStepIDsOf db p.ID) 0 p.Steps
            (deleteStaleSteps p.ID ((dbStepIDsOf db p.ID).filter
              (fun sid => !((p.Steps.map (fun st => st.id)).contains sid))) db) with
        | error e =>
          rw [hloop] at hsave
          cases hsave
        | ok db3 =>
          rw [hloop] at hsave
          cases c with
          | false => cases hsave
          | true =>
            refine ⟨db3, rfl, ?_⟩
            have h2 := hsave
            simp only [reduceIte, Except.ok.injEq, Prod.mk.injEq] at h2
            exact h2.1.symm
      · rw [if_neg hcont] at hsave
        cases hsave
  obtain ⟨db1, hsteps1, hpid1, db3, hloop, rfl⟩ := hmain
  have hpk1 : ((db1.steps.map (fun r => (r.planId, r.id))).Nodup) := by
    rw [hsteps1]
    exact hwf.2
  obtain ⟨hN, hA, hB, hD, hplans⟩ := save_after_plan_phase p db1 db2 hpk1 hnd hloop
  exact ⟨by rw [hplans]; exact hpid1, hN, hA, hB, hD⟩

/-! ### ORDER BY: sortedness and uniqueness -/

theorem insertByKey_perm (key : α → Nat) (a : α) :
    ∀ l : List α, (insertByKey key a l).Perm (a :: l) := by
  intro l
  induction l with
  | nil => exact List.Perm.refl _
  | cons b t ih =>
    unfold insertByKey
    by_cases h : key a ≤ key b
    · rw [if_pos h]
    · rw [if_neg h]
      exact (ih.cons b).trans (List.Perm.swap a b t)

theorem orderBy_perm (key : α → Nat) : ∀ l : List α, (orderBy key l).Perm l := by
  intro l
  induction l with
  | nil => exact List.Perm.refl _
  | cons a t ih =>
    unfold orderBy
    exact (insertByKey_perm key a (orderBy key t)).trans (ih.cons a)

theorem insertByKey_sorted (key : α → Nat) (a : α) :
    ∀ l : List α, l.Pairwise (fun x y => key x ≤ key y) →
      (insertByKey key a l).Pairwise (fun x y => key x ≤ key y) := by
  intro l
  induction l with
  | nil => intro _; exact List.pairwise_singleton _ _
  | cons b t ih =>
    intro h
    rw [List.pairwise_cons] at h
    unfold insertByKey
    by_cases hle : key a ≤ key b
    · rw [if_pos hle]
      rw [List.pairwise_cons]
      refine ⟨?_, List.pairwise_cons.2 h⟩
      intro x hx
      rcases List.mem_cons.1 hx with rfl | hx2
      · exact hle
      · exact hle.trans (h.1 x hx2)
    · rw [if_neg hle]
      rw [List.pairwise_cons]
      refine ⟨?_, ih h.2⟩
      intro x hx
      have := (insertByKey_perm key a t).mem_iff.1 hx
      rcases List.mem_cons.1 this with rfl | hx2
      · omega
      · exact h.1 x hx2

theorem orderBy_sorted (key : α → Nat) :
    ∀ l : List α, (orderBy key l).Pairwise (fun x y => key x ≤ key y) := by
  intro l
  induction l with
  | nil => exact List.Pairwise.nil
  | cons a t ih =>
    unfold orderBy
    exact insertByKey_sorted key a (orderBy key t) ih

theorem sorted_perm_eq (key : α → Nat) :
    ∀ (l1 l2 : List α), l1.Perm l2 →
      l1.Pairwise (fun x y => key x ≤ key y) →
      l2.Pairwise (fun x y => key x ≤ key y) →
      ((l1.map key).Nodup) → l1 = l2 := by
  intro l1
  induction l1 with
  | nil =>
    intro l2 hperm _ _ _
    exact (hperm.nil_eq).symm ▸ rfl
  | cons a t1 ih =>
    intro l2 hperm hs1 hs2 hnd
    cases l2 with
    | nil => exact absurd hperm.symm (by simp)
    | cons b t2 =>
      rw [List.pairwise_cons] at hs1 hs2
      simp only [List.map_cons, List.nodup_cons] at hnd
      have hab : a = b := by
        have hbmem : b ∈ a :: t1 := hperm.mem_iff.2 (List.mem_cons_self _ _)
        have hamem : a ∈ b :: t2 := hperm.mem_iff.1 (List.mem_cons_self _ _)
        have hba : key a ≤ key b := by
          rcases List.mem_cons.1 hbmem with rfl | h2
          · exact Nat.le_refl _
          · exact hs1.1 b h2
        have hab2 : key b ≤ key a := by
          rcases List.mem_cons.1 hamem with h2 | h2
          · rw [h2]
          · exact hs2.1 a h2
        rcases List.mem_cons.1 hamem with h2 | h2
        · exact h2
        · exfalso
          rcases List.mem_cons.1 hbmem with h3 | h3
          · subst h3
            have ht : t1.Perm t2 := hperm.cons_inv
            exact hnd.1 (List.mem_map_of_mem _ (ht.mem_iff.2 h2))
          · apply hnd.1
            have hkey : key a = key b := Nat.le_antisymm hba hab2
            rw [hkey]
            exact List.mem_map_of_mem _ h3
      subst hab
      have htails : t1.Perm t2 := hperm.cons_inv
      rw [ih t2 htails hs1.2 hs2.2 hnd.2]

theorem orderBy_eq_self (key : α → Nat) (l : List α)
    (hs : l.Pairwise (fun x y => key x ≤ key y)) (hnd : (l.map key).Nodup) :
    orderBy key l = l := by
  refine sorted_perm_eq key (orderBy key l) l (orderBy_perm key l)
    (orderBy_sorted key l) hs ?_
  have : ((orderBy key l).map key).Perm (l.map key) := (orderBy_perm key l).map key
  exact (this.nodup_iff).2 hnd

/-- The list of step rows the save loop writes for a step sequence, starting
at a given order. -/
def targetRows (pid : String) : Nat → List Step → List StepRow
  | _, [] => []
  | i, st :: rest => mkRow pid st i :: targetRows pid (i+1) rest

theorem targetRows_mem (pid : String) :
    ∀ (steps : List Step) (i0 : Nat) (r : StepRow),
      r ∈ targetRows pid i0 steps ↔
        ∃ j, ∃ h : j < steps.length, r = mkRow pid (steps.get ⟨j, h⟩) (i0 + j) := by
  intro steps
  induction steps with
  | nil =>
    intro i0 r
    simp [targetRows]
  | cons st rest ih =>
    intro i0 r
    simp only [targetRows, List.mem_cons]
    constructor
    · rintro (rfl | h2)
      · exact ⟨0, by simp, rfl⟩
      · obtain ⟨j, h, hrow⟩ := (ih (i0+1) r).1 h2
        refine ⟨j+1, Nat.succ_lt_succ h, ?_⟩
        rw [hrow]
        have : i0 + 1 + j = i0 + (j + 1) := by omega
        rw [this]
        rfl
    · rintro ⟨j, h, hrow⟩
      cases j with
      | zero =>
        left
        rw [hrow, Nat.add_zero]
        rfl
      | succ k =>
        right
        refine (ih (i0+1) r).2 ⟨k, Nat.lt_of_succ_lt_succ h, ?_⟩
        rw [hrow]
        have : i0 + 1 + k = i0 + (k + 1) := by omega
        rw [this]
        rfl

theorem targetRows_order_ge (pid : String) :
    ∀ (steps : List Step) (i0 : Nat) (r : StepRow),
      r ∈ targetRows pid i0 steps → i0 ≤ r.stepOrder := by
  intro steps
  induction steps with
  | nil => intro i0 r h; cases h
  | cons st rest ih =>
    intro i0 r h
    rcases List.mem_cons.1 h with rfl | h2
    · exact Nat.le_refl _
    · exact Nat.le_of_succ_le (ih (i0+1) r h2)

theorem targetRows_sorted (pid : String) :
    ∀ (steps : List Step) (i0 : Nat),
      (targetRows pid i0 steps).Pairwise (fun x y => x.stepOrder ≤ y.stepOrder) := by
  intro steps
  induction steps with
  | nil => intro i0; exact List.Pairwise.nil
  | cons st rest ih =>
    intro i0
    simp only [targetRows]
    rw [List.pairwise_cons]
    refine ⟨?_, ih (i0+1)⟩
    intro r hr
    exact Nat.le_of_succ_le (targetRows_order_ge pid rest (i0+1) r hr)

theorem targetRows_orders_nodup (pid : String) :
    ∀ (steps : List Step) (i0 : Nat),
      ((targetRows pid i0 steps).map (fun r => r.stepOrder)).Nodup := by
  intro steps
  induction steps with
  | nil => intro i0; simp [targetRows]
  | cons st rest ih =>
    intro i0
    simp only [targetRows, List.map_cons, List.nodup_cons]
    refine ⟨?_, ih (i0+1)⟩
    intro hmem
    obtain ⟨r, hr, hrord⟩ := List.mem_map.1 hmem
    have := targetRows_order_ge pid rest (i0+1) r hr
    show False
    have hord : (mkRow pid st i0).stepOrder = i0 := rfl
    rw [hord] at hrord
    omega

theorem targetRows_length (pid : String) :
    ∀ (steps : List Step) (i0 : Nat), (targetRows pid i0 steps).length = steps.length := by
  intro steps
  induction steps with
  | nil => intro _; rfl
  | cons st rest ih =>
    intro i0
    simp only [targetRows, List.length_cons, ih (i0+1)]

theorem critRowsOf_sorted (pid sid : String) :
    ∀ (l : List String) (j : Nat),
      (critRowsOf pid sid j l).Pairwise (fun x y => x.criterionOrder ≤ y.criterionOrder) ∧
      ((critRowsOf pid sid j l).map (fun r => r.criterionOrder)).Nodup ∧
      (∀ r ∈ critRowsOf pid sid j l, j ≤ r.criterionOrder) ∧
      (critRowsOf pid sid j l).map (fun r => r.criterion) = l := by
  intro l
  induction l with
  | nil => intro j; exact ⟨List.Pairwise.nil, by simp [critRowsOf], fun r h => absurd h (by simp [critRowsOf]), rfl⟩
  | cons c rest ih =>
    intro j
    obtain ⟨ihs, ihn, ihge, ihmap⟩ := ih (j+1)
    refine ⟨?_, ?_, ?_, ?_⟩
    · simp only [critRowsOf]
      rw [List.pairwise_cons]
      exact ⟨fun r hr => Nat.le_of_succ_le (ihge r hr), ihs⟩
    · simp only [critRowsOf, List.map_cons, List.nodup_cons]
      refine ⟨?_, ihn⟩
      intro hmem
      obtain ⟨r, hr, hrord⟩ := List.mem_map.1 hmem
      have := ihge r hr
      omega
    · intro r hr
      simp only [critRowsOf, List.mem_cons] at hr
      rcases hr with rfl | hr2
      · exact Nat.le_refl _
      · exact Nat.le_of_succ_le (ihge r hr2)
    · simp only [critRowsOf, List.map_cons, ihmap]

theorem refRowsOf_sorted (pid sid : String) :
    ∀ (l : List String) (j : Nat),
      (refRowsOf pid sid j l).Pairwise (fun x y => x.referenceOrder ≤ y.referenceOrder) ∧
      ((refRowsOf pid sid j l).map (fun r => r.referenceOrder)).Nodup ∧
      (∀ r ∈ refRowsOf pid sid j l, j ≤ r.referenceOrder) ∧
      (refRowsOf pid sid j l).map (fun r => r.reference) = l := by
  intro l
  induction l with
  | nil => intro j; exact ⟨List.Pairwise.nil, by simp [refRowsOf], fun r h => absurd h (by simp [refRowsOf]), rfl⟩
  | cons c rest ih =>
    intro j
    obtain ⟨ihs, ihn, ihge, ihmap⟩ := ih (j+1)
    refine ⟨?_, ?_, ?_, ?_⟩
    · simp only [refRowsOf]
      rw [List.pairwise_cons]
      exact ⟨fun r hr => Nat.le_of_succ_le (ihge r hr), ihs⟩
    · simp only [refRowsOf, List.map_cons, List.nodup_cons]
      refine ⟨?_, ihn⟩
      intro hmem
      obtain ⟨r, hr, hrord⟩ := List.mem_map.1 hmem
      have := ihge r hr
      omega
    · intro r hr
      simp only [refRowsOf, List.mem_cons] at hr
      rcases hr with rfl | hr2
      · exact Nat.le_refl _
      · exact Nat.le_of_succ_le (ihge r hr2)
    · simp only [refRowsOf, List.map_cons, ihmap]

theorem rows_perm_targets {db2 : DB} {p : Plan}
    (hpk : ((db2.steps.map (fun r => (r.planId, r.id))).Nodup))
    (hA : ∀ r ∈ stepRowsFor db2 p.ID,
      ∃ j, ∃ h : j < p.Steps.length, r = mkRow p.ID (p.Steps.get ⟨j, h⟩) j)
    (hB : ∀ j (h : j < p.Steps.length),
      mkRow p.ID (p.Steps.get ⟨j, h⟩) j ∈ stepRowsFor db2 p.ID) :
    (stepRowsFor db2 p.ID).Perm (targetRows p.ID 0 p.Steps) := by
  have hnd1 : (stepRowsFor db2 p.ID).Nodup := by
    have hsub : (stepRowsFor db2 p.ID).Sublist db2.steps := List.filter_sublist _
    exact List.Sublist.nodup hsub (List.Nodup.of_map _ hpk)
  have hnd2 : (targetRows p.ID 0 p.Steps).Nodup :=
    List.Nodup.of_map _ (targetRows_orders_nodup p.ID p.Steps 0)
  rw [List.perm_ext_iff_of_nodup hnd1 hnd2]
  intro r
  constructor
  · intro hr
    obtain ⟨j, h, hrow⟩ := hA r hr
    refine (targetRows_mem p.ID p.Steps 0 r).2 ⟨j, h, ?_⟩
    rw [Nat.zero_add]
    exact hrow
  · intro hr
    obtain ⟨j, h, hrow⟩ := (targetRows_mem p.ID p.Steps 0 r).1 hr
    rw [Nat.zero_add] at hrow
    rw [hrow]
    exact hB j h

theorem ordered_rows_eq_targets {db2 : DB} {p : Plan}
    (hpk : ((db2.steps.map (fun r => (r.planId, r.id))).Nodup))
    (hA : ∀ r ∈ stepRowsFor db2 p.ID,
      ∃ j, ∃ h : j < p.Steps.length, r = mkRow p.ID (p.Steps.get ⟨j, h⟩) j)
    (hB : ∀ j (h : j < p.Steps.length),
      mkRow p.ID (p.Steps.get ⟨j, h⟩) j ∈ stepRowsFor db2 p.ID) :
    orderBy (fun r => r.stepOrder) (stepRowsFor db2 p.ID) = targetRows p.ID 0 p.Steps := by
  have hperm : (orderBy (fun r => r.stepOrder) (stepRowsFor db2 p.ID)).Perm
      (targetRows p.ID 0 p.Steps) :=
    (orderBy_perm _ _).trans (rows_perm_targets hpk hA hB)
  refine sorted_perm_eq (fun r => r.stepOrder) _ _ hperm (orderBy_sorted _ _)
    (targetRows_sorted p.ID p.Steps 0) ?_
  have := hperm.map (fun r => r.stepOrder)
  exact (this.nodup_iff).2 (targetRows_orders_nodup p.ID p.Steps 0)

/-- The in-memory step sequence Get reconstructs: ids, descriptions and
statuses as saved, orders densely reassigned, collections loaded non-nil. -/
def setLoaded : Nat → List Step → List Step
  | _, [] => []
  | i, st :: rest => { id := st.id, description := st.description, status := st.status, stepOrder := i, acceptance := some (st.acceptance.getD []), references := some (st.references.getD []) } :: setLoaded (i+1) rest

theorem targetRows_map_get (db2 : DB) (pid : String) :
    ∀ (steps : List Step) (i0 : Nat),
      (∀ st ∈ steps,
        critRowsFor db2 pid st.id = critRowsOf pid st.id 0 (st.acceptance.getD []) ∧
        refRowsFor db2 pid st.id = refRowsOf pid st.id 0 (st.references.getD [])) →
      ((targetRows pid i0 steps).map (fun r =>
        ({ id := r.id, description := r.description, status := r.status, stepOrder := r.stepOrder, acceptance := some ((orderBy (fun c => c.criterionOrder) (critRowsFor db2 pid r.id)).map (fun c => c.criterion)), references := some ((orderBy (fun c => c.referenceOrder) (refRowsFor db2 pid r.id)).map (fun c => c.reference)) } : Step))) =
      setLoaded i0 steps := by
  intro steps
  induction steps with
  | nil => intro i0 _; rfl
  | cons st rest ih =>
    intro i0 hc
    obtain ⟨hcs, hrs⟩ := hc st (List.mem_cons_self st rest)
    simp only [targetRows, List.map_cons, setLoaded]
    refine congrArg₂ _ ?_ (ih (i0+1) (fun s hs => hc s (List.mem_cons_of_mem st hs)))
    show ({ id := st.id, description := st.description, status := st.status, stepOrder := i0, acceptance := some ((orderBy (fun c => c.criterionOrder) (critRowsFor db2 pid st.id)).map (fun c => c.criterion)), references := some ((orderBy (fun c => c.referenceOrder) (refRowsFor db2 pid st.id)).map (fun c => c.reference)) } : Step) = _
    rw [hcs, hrs]
    obtain ⟨hs1, hn1, _, hm1⟩ := critRowsOf_sorted pid st.id (st.acceptance.getD []) 0
    obtain ⟨hs2, hn2, _, hm2⟩ := refRowsOf_sorted pid st.id (st.references.getD []) 0
    rw [orderBy_eq_self _ _ hs1 hn1, orderBy_eq_self _ _ hs2 hn2, hm1, hm2]

theorem setLoaded_maps :
    ∀ (steps : List Step) (i0 : Nat),
      (setLoaded i0 steps).map (fun st => st.id) = steps.map (fun st => st.id) ∧
      (setLoaded i0 steps).map (fun st => st.description) = steps.map (fun st => st.description) ∧
      (setLoaded i0 steps).map (fun st => st.status) = steps.map (fun st => st.status) ∧
      (setLoaded i0 steps).map Step.AcceptanceCriteria =
        steps.map (fun st => some (st.acceptance.getD [])) ∧
      (setLoaded i0 steps).map Step.References =
        steps.map (fun st => some (st.references.getD [])) := by
  intro steps
  induction steps with
  | nil => intro i0; exact ⟨rfl, rfl, rfl, rfl, rfl⟩
  | cons st rest ih =>
    intro i0
    obtain ⟨h1, h2, h3, h4, h5⟩ := ih (i0+1)
    simp [setLoaded, Step.AcceptanceCriteria, Step.References, h1, h2, h3, h4, h5]

theorem save_get_steps {db : DB} {p : Plan} {c : Bool} {db2 : DB} {p2 : Plan}
    (hwf : WF db) (hnd : (p.Steps.map (fun st => st.id)).Nodup)
    (hsave : Planner.Save db p c = .ok (db2, p2)) :
    Planner.Get db2 p.ID = .ok { ID := p.ID, isNew := false, Steps := setLoaded 0 p.Steps } := by
  obtain ⟨hmem, hpk, hA, hB, hC⟩ := save_rows_spec hwf hnd hsave
  have hcont : db2.plans.contains p.ID = true := by simpa using hmem
  have hcm : ∀ st ∈ p.Steps,
      critRowsFor db2 p.ID st.id = critRowsOf p.ID st.id 0 (st.acceptance.getD []) ∧
      refRowsFor db2 p.ID st.id = refRowsOf p.ID st.id 0 (st.references.getD []) := by
    intro st hst
    obtain ⟨⟨j, h⟩, heq⟩ := List.mem_iff_get.1 hst
    have := hC j h
    rw [heq] at this
    exact this
  unfold Planner.Get
  rw [if_pos hcont]
  rw [ordered_rows_eq_targets hpk hA hB]
  rw [targetRows_map_get db2 p.ID p.Steps 0 hcm]

theorem targetRows_orders_eq (pid : String) :
    ∀ (steps : List Step) (i0 : Nat),
      (targetRows pid i0 steps).map (fun r => r.stepOrder) = List.range' i0 steps.length := by
  intro steps
  induction steps with
  | nil => intro i0; rfl
  | cons st rest ih =>
    intro i0
    simp only [targetRows, List.map_cons, List.length_cons, List.range'_succ, ih (i0+1)]
    exact rfl

/-! ### C2 and C8: the save/get round-trip and dense stored orders -/

/-- C2: amended round-trip. For every well-formed database and every plan whose
step ids are pairwise distinct, after a successful Save a Get of the plan's
name succeeds and returns a step sequence with the same ids, descriptions and
statuses in the same order, and with each step's acceptance criteria and
references equal (as non-nil sequences) to the saved in-memory ones.  The
duplicate-id exception of the original claim is the separate counterexample
theorem. -/
theorem save_get_roundtrip {db : DB} {p : Plan} {c : Bool} {db2 : DB} {p2 : Plan}
    (hwf : WF db) (hnd : (p.Steps.map (fun st => st.id)).Nodup)
    (hsave : Planner.Save db p c = .ok (db2, p2)) :
    ∃ q, Planner.Get db2 p.ID = .ok q ∧
      q.Steps.map (fun st => st.id) = p.Steps.map (fun st => st.id) ∧
      q.Steps.map (fun st => st.description) = p.Steps.map (fun st => st.description) ∧
      q.Steps.map (fun st => st.status) = p.Steps.map (fun st => st.status) ∧
      q.Steps.map Step.AcceptanceCriteria = p.Steps.map (fun st => some (st.acceptance.getD [])) ∧
      q.Steps.map Step.References = p.Steps.map (fun st => some (st.references.getD [])) := by
  refine ⟨_, save_get_steps hwf hnd hsave, ?_⟩
  exact setLoaded_maps p.Steps 0

/-- A fresh empty database for the round-trip witness. -/
def dbW : DB := { plans := [], steps := [], criteria := [], refs := [] }

/-- A two-step plan with criteria and references on the first step and nil
collections on the second. -/
def pW : Plan :=
  { ID := "p", isNew := true,
    Steps :=
      [{ id := "a", description := "d1", status := "TODO", stepOrder := 0,
         acceptance := some ["c1", "c2"], references := some ["r1"] },
       { id := "b", description := "d2", status := "DONE", stepOrder := 0,
         acceptance := none, references := none }] }

/-- The database a successful Save of pW into dbW produces. -/
def dbW2 : DB := ((Planner.Save dbW pW true).toOption.getD (dbW, pW)).1

/-- The plan value that same Save returns. -/
def pW2 : Plan := ((Planner.Save dbW pW true).toOption.getD (dbW, pW)).2

theorem save_get_roundtrip_witness :
    ∃ q, Planner.Get dbW2 pW.ID = .ok q ∧
      q.Steps.map (fun st => st.id) = pW.Steps.map (fun st => st.id) ∧
      q.Steps.map (fun st => st.description) = pW.Steps.map (fun st => st.description) ∧
      q.Steps.map (fun st => st.status) = pW.Steps.map (fun st => st.status) ∧
      q.Steps.map Step.AcceptanceCriteria = pW.Steps.map (fun st => some (st.acceptance.getD [])) ∧
      q.Steps.map Step.References = pW.Steps.map (fun st => some (st.references.getD [])) :=
  save_get_roundtrip ⟨by decide, by decide⟩ (by decide)
    (show Planner.Save dbW pW true = .ok (dbW2, pW2) from by decide)

/-- C8: amended dense orders. After every successful Save of a well-formed
database with a plan whose step ids are pairwise distinct, the plan's stored
step rows are exactly one per in-memory step; the row holding the id of the
step at 0-based position j has order column j, every stored row arises this
way, and the multiset of stored order values is exactly 0..N-1. -/
theorem saved_orders_dense {db : DB} {p : Plan} {c : Bool} {db2 : DB} {p2 : Plan}
    (hwf : WF db) (hnd : (p.Steps.map (fun st => st.id)).Nodup)
    (hsave : Planner.Save db p c = .ok (db2, p2)) :
    (stepRowsFor db2 p.ID).length = p.Steps.length ∧
    (∀ j (h : j < p.Steps.length), ∃ r ∈ stepRowsFor db2 p.ID,
      r.id = (p.Steps.get ⟨j, h⟩).id ∧ r.stepOrder = j) ∧
    (∀ r ∈ stepRowsFor db2 p.ID, ∃ j, ∃ h : j < p.Steps.length,
      r.id = (p.Steps.get ⟨j, h⟩).id ∧ r.stepOrder = j) ∧
    ((stepRowsFor db2 p.ID).map (fun r => r.stepOrder)).Perm (List.range p.Steps.length) := by
  obtain ⟨hmem, hpk, hA, hB, hC⟩ := save_rows_spec hwf hnd hsave
  have hperm := rows_perm_targets hpk hA hB
  refine ⟨?_, ?_, ?_, ?_⟩
  · rw [hperm.length_eq, targetRows_length]
  · intro j h
    exact ⟨mkRow p.ID (p.Steps.get ⟨j, h⟩) j, hB j h, rfl, rfl⟩
  · intro r hr
    obtain ⟨j, h, hrow⟩ := hA r hr
    exact ⟨j, h, by rw [hrow]; exact ⟨rfl, rfl⟩⟩
  · have := hperm.map (fun r => r.stepOrder)
    rw [targetRows_orders_eq p.ID p.Steps 0] at this
    rw [List.range_eq_range']
    exact this

theorem saved_orders_dense_witness :
    (stepRowsFor dbW2 pW.ID).length = pW.Steps.length ∧
    (∀ j (h : j < pW.Steps.length), ∃ r ∈ stepRowsFor dbW2 pW.ID,
      r.id = (pW.Steps.get ⟨j, h⟩).id ∧ r.stepOrder = j) ∧
    (∀ r ∈ stepRowsFor dbW2 pW.ID, ∃ j, ∃ h : j < pW.Steps.length,
      r.id = (pW.Steps.get ⟨j, h⟩).id ∧ r.stepOrder = j) ∧
    ((stepRowsFor dbW2 pW.ID).map (fun r => r.stepOrder)).Perm (List.range pW.Steps.length) :=
  saved_orders_dense ⟨by decide, by decide⟩ (by decide)
    (show Planner.Save dbW pW true = .ok (dbW2, pW2) from by decide)
